import Mathlib

/-!
A verification development for the structure-id fingerprinting engine
(`src/index.ts` of the structure-id package).  JavaScript values are modelled
as a heap of object/array nodes plus immediate values; object identity is a
heap address, so reference cycles are representable.  `WeakMap`/`Map` state is
modelled with association lists, JS `bigint` arithmetic with `Int`/`Nat`
(arbitrary precision, as in JS), and the traversal is written with explicit
fuel so that every definition is executable and termination is a theorem
rather than an assumption.
-/

namespace StructureId

/-! ## Decimal printing and parsing

Models of JS `BigInt.prototype.toString` (base 10) and of the `BigInt(string)`
constructor restricted to decimal numerals.  (Whitespace trimming and the
`0x`/`0o`/`0b` radix prefixes accepted by `BigInt(string)` are not modelled;
no behaviour relevant to the claims depends on them.)  Fuel makes the
definitions structurally recursive, hence kernel-evaluable. -/

def digitChar (n : Nat) : Char :=
  match n with
  | 0 => '0' | 1 => '1' | 2 => '2' | 3 => '3' | 4 => '4'
  | 5 => '5' | 6 => '6' | 7 => '7' | 8 => '8' | _ => '9'

def natDecimalGo : Nat → Nat → List Char
  | 0, _ => []
  | fuel + 1, n =>
    if n < 10 then [digitChar n]
    else natDecimalGo fuel (n / 10) ++ [digitChar (n % 10)]

/-- Base-10 numeral of a natural number, no leading zeros. -/
def natDecimal (n : Nat) : String := ⟨natDecimalGo (n + 1) n⟩

/-- Base-10 numeral of an integer (model of JS `bigint` → string). -/
def intDecimal (i : Int) : String :=
  if i < 0 then "-" ++ natDecimal i.natAbs else natDecimal i.toNat

def digitVal? (c : Char) : Option Nat :=
  if '0' ≤ c ∧ c ≤ '9' then some (c.toNat - '0'.toNat) else none

def parseNatGo : List Char → Nat → Option Nat
  | [], acc => some acc
  | c :: cs, acc =>
    match digitVal? c with
    | none => none
    | some d => parseNatGo cs (acc * 10 + d)

/-- Model of `BigInt(string)` on decimal numerals: `""` is `0`, an optional
sign is allowed, any non-digit elsewhere fails (JS throws a `SyntaxError`). -/
def jsBigInt? (s : String) : Option Int :=
  match s.data with
  | [] => some 0
  | c :: cs =>
    if c = '-' then
      if cs = [] then none else (parseNatGo cs 0).map (fun n => -(n : Int))
    else if c = '+' then
      if cs = [] then none else (parseNatGo cs 0).map (fun n => (n : Int))
    else (parseNatGo (c :: cs) 0).map (fun n => (n : Int))

/-! ## String utilities (models of `Array.prototype.join`, `String.prototype.split`) -/

/-- `[s1, …, sn].join(sep)`. -/
def joinSep (sep : String) : List String → String
  | [] => ""
  | [s] => s
  | s :: rest => s ++ sep ++ joinSep sep rest

def splitDashGo : List Char → List (List Char)
  | [] => [[]]
  | c :: rest =>
    match splitDashGo rest with
    | [] => [[]]
    | g :: gs => if c = '-' then [] :: g :: gs else (c :: g) :: gs

/-- `s.split("-")`. -/
def jsSplitDash (s : String) : List String := (splitDashGo s.data).map (fun l => ⟨l⟩)

/-- JS string comparison (code-unit lexicographic; identical to codepoint
order on the ASCII and BMP strings that arise here). -/
def charListLe : List Char → List Char → Bool
  | [], _ => true
  | _ :: _, [] => false
  | a :: as, b :: bs =>
    if a.toNat < b.toNat then true
    else if b.toNat < a.toNat then false
    else charListLe as bs

def jsStrLe (s t : String) : Bool := charListLe s.data t.data

def insSorted (s : String) : List String → List String
  | [] => [s]
  | t :: ts => if jsStrLe s t then s :: t :: ts else t :: insSorted s ts

/-- `keys.sort()` — default JS string sort. -/
def sortStrs : List String → List String
  | [] => []
  | s :: ss => insSorted s (sortStrs ss)

/-- Sum of `charCodeAt` over a string (the strings this is applied to are
ASCII, where a code unit equals the codepoint). -/
def charSum (s : String) : Nat := (s.data.map Char.toNat).sum

/-! ## Association-list maps (models of `Map` / `WeakMap`) -/

/-- `Map.prototype.set`: replace in place, append when absent. -/
def setA {α β : Type} [BEq α] : List (α × β) → α → β → List (α × β)
  | [], k, v => [(k, v)]
  | (k', v') :: rest, k, v =>
    if k' == k then (k, v) :: rest else (k', v') :: setA rest k v

/-- `WeakMap.prototype.delete`. -/
def eraseA {α β : Type} [BEq α] : List (α × β) → α → List (α × β)
  | [], _ => []
  | (k', v') :: rest, k => if k' == k then rest else (k', v') :: eraseA rest k

/-! ## The JS value model -/

abbrev Addr := Nat

/-- An immediate JS value; objects and arrays live on the heap behind `vref`.
Primitive payloads are carried so that value-independence is a theorem, not a
modelling artifact. -/
inductive JsVal where
  | vundef
  | vnull
  | vbool (b : Bool)
  | vnum (n : Int)
  | vstr (s : String)
  | vbig (n : Int)
  | vsym (n : Nat)
  | vfun (n : Nat)
  | vref (a : Addr)
deriving DecidableEq, Repr

/-- A heap node: a plain object (own enumerable fields, in insertion order)
or an array. -/
inductive HNode where
  | obj (fields : List (String × JsVal))
  | arr (items : List JsVal)
deriving DecidableEq, Repr

abbrev Heap := List HNode

/-- `typeof v` (with `typeof null = "object"`). -/
def typeofStr : JsVal → String
  | .vundef => "undefined"
  | .vnull => "object"
  | .vbool _ => "boolean"
  | .vnum _ => "number"
  | .vstr _ => "string"
  | .vbig _ => "bigint"
  | .vsym _ => "symbol"
  | .vfun _ => "function"
  | .vref _ => "object"

/-- The fixed `TYPE_BITS` table; `TYPE_BITS[t] || 0n` semantics: a name that
is absent from the table (e.g. `"function"`) yields `0`. -/
def typeBitsName (s : String) : Int :=
  if s = "root" then 0
  else if s = "number" then 1
  else if s = "string" then 2
  else if s = "boolean" then 4
  else if s = "bigint" then 8
  else if s = "null" then 16
  else if s = "undefined" then 32
  else if s = "symbol" then 64
  else if s = "object" then 128
  else if s = "array" then 256
  else 0

/-- `getType` of the source: null, undefined and arrays are distinguished
before falling back to `typeof`. -/
def getTypeName (H : Heap) : JsVal → String
  | .vnull => "null"
  | .vundef => "undefined"
  | .vref a =>
    match H.get? a with
    | some (.arr _) => "array"
    | _ => "object"
  | .vbool _ => "boolean"
  | .vnum _ => "number"
  | .vstr _ => "string"
  | .vbig _ => "bigint"
  | .vsym _ => "symbol"
  | .vfun _ => "function"

/-- `getObjectSignature`: path plus sorted key set for objects, path plus
length for arrays (used only as the cycle marker). -/
def nodeSignature (node : HNode) (path : List String) : String :=
  match node with
  | .obj fields =>
    joinSep "." path ++ ".\x7b" ++ joinSep "," (sortStrs (fields.map Prod.fst)) ++ "\x7d"
  | .arr items =>
    joinSep "." path ++ ".[" ++ natDecimal items.length ++ "]"

/-- `BigInt(1 << level)`: the JS `<<` is a 32-bit signed shift, so the seed
wraps at depth 31 (and repeats with period 32). -/
def jsSeed (level : Nat) : Int :=
  let k := level % 32
  if k = 31 then -(2 ^ 31 : Int) else (2 ^ k : Int)

/-! ## Per-call traversal state

`TSt` bundles the call-scoped visited map (`objectMap`) and per-depth sums
(`levelHashes`) with the process-wide key registry (`GLOBAL_KEY_MAP`,
threaded through because `getBit` mutates it during traversal). -/

structure TSt where
  omap : List (Addr × String)
  levels : List (Nat × Int)
  km : List (String × Int)
  nextBit : Int
deriving DecidableEq, Repr

/-- `getBit`: look up a key in the global map, allocating the next bit
(`nextBit <<= 1n`) on first observation. -/
def tGetBit (st : TSt) (k : String) : Int × TSt :=
  match st.km.lookup k with
  | some b => (b, st)
  | none => (st.nextBit, { st with km := st.km ++ [(k, st.nextBit)], nextBit := st.nextBit * 2 })

/-- Insert/replace keeping keys in ascending order.  `levelHashes` is a JS
object with integer-like keys, which enumerate in ascending numeric order, so
a sorted association list is the faithful model (the source additionally
sorts, a no-op). -/
def lvlSet : List (Nat × Int) → Nat → Int → List (Nat × Int)
  | [], d, x => [(d, x)]
  | (k, v) :: rest, d, x =>
    if d < k then (d, x) :: (k, v) :: rest
    else if d = k then (d, x) :: rest
    else (k, v) :: lvlSet rest d x

/-- `if (!levelHashes[level]) levelHashes[level] = BigInt(1 << level)` —
note the JS falsiness check also reseeds a level that is exactly `0`. -/
def lvlInit (L : List (Nat × Int)) (d : Nat) : List (Nat × Int) :=
  match L.lookup d with
  | none => lvlSet L d (jsSeed d)
  | some h => if h = 0 then lvlSet L d (jsSeed d) else L

/-- `levelHashes[level] += x` (always preceded by `lvlInit` in the source,
so the absent case is unreachable). -/
def lvlAdd (L : List (Nat × Int)) (d : Nat) (x : Int) : List (Nat × Int) :=
  lvlSet L d ((L.lookup d).getD 0 + x)

def bump (st : TSt) (d : Nat) (x : Int) : TSt := { st with levels := lvlAdd st.levels d x }

/-- Run a sequence of state steps, propagating failure (out of fuel). -/
def foldSteps {α : Type} (step : TSt → α → Option TSt) : List α → TSt → Option TSt
  | [], st => some st
  | x :: xs, st =>
    match step st x with
    | none => none
    | some st' => foldSteps step xs st'

/-- `obj[key]` for a key coming from `Object.keys(obj)`. -/
def fieldVal (fields : List (String × JsVal)) (k : String) : JsVal :=
  (fields.lookup k).getD JsVal.vundef

/-- `processStructure`, with fuel bounding the depth of reference recursion.
One unit of fuel is consumed per recursive entry; the loops over fields and
items are `foldSteps` at the reduced fuel. -/
def procVal (H : Heap) : Nat → JsVal → Nat → List String → TSt → Option TSt
  | 0, _, _, _, _ => none
  | fuel + 1, v, level, path, st0 =>
    let st1 := { st0 with levels := lvlInit st0.levels level }
    let t := getTypeName H v
    let st2 := bump st1 level (typeBitsName t)
    match v with
    | .vref a =>
      match H.get? a with
      | none => some st2
      | some node =>
        let objSig := nodeSignature node path
        match st2.omap.lookup a with
        | some circPath =>
          let p := tGetBit st2 ("circular:" ++ circPath)
          some (bump p.2 level p.1)
        | none =>
          let st3 := { st2 with omap := (a, objSig) :: st2.omap }
          let p := tGetBit st3 ("type:" ++ t)
          let st4 := bump p.2 level p.1
          match node with
          | .obj fields =>
            foldSteps
              (fun st k =>
                let q := tGetBit st k
                procVal H fuel (fieldVal fields k) (level + 1) (path ++ [k])
                  (bump q.2 level q.1))
              (sortStrs (fields.map Prod.fst)) st4
          | .arr items =>
            let q := tGetBit st4 ("length:" ++ natDecimal items.length)
            let st5 := bump q.2 level q.1
            foldSteps
              (fun st ix =>
                let ixKey := "[" ++ natDecimal ix.1 ++ "]"
                let r := tGetBit st ixKey
                procVal H fuel ix.2 (level + 1) (path ++ [ixKey])
                  (bump r.2 level r.1))
              items.enum st5
    | _ => some st2

/-! ## Process-wide engine state and the public operations -/

/-- The `getStructureInfo` result triple. -/
structure StructInfo where
  id : String
  levels : Nat
  collisionCount : Nat
deriving DecidableEq, Repr

/-- All module-level mutable state of the source: `GLOBAL_KEY_MAP`/`nextBit`,
`STRUCTURE_HASH_COUNTER`, the three identity caches (keyed by heap address,
the model of object identity), `RESET_SEED`, and the global config flag. -/
structure GState where
  km : List (String × Int)
  nextBit : Int
  counter : List (String × Nat)
  idCache : List (Addr × String)
  sigCache : List (Addr × String)
  infoCache : List (Addr × StructInfo)
  seed : Nat
  globalCfg : Bool
deriving DecidableEq, Repr

/-- Module-initialization state. -/
def initialGState : GState :=
  { km := [], nextBit := 512, counter := [], idCache := [], sigCache := []
    infoCache := [], seed := 0, globalCfg := false }

/-- Fuel sufficient for any traversal: the reference chain entered by
`processStructure` visits pairwise-distinct addresses, so its depth is at
most `H.length`, plus one leaf frame. -/
def fuelFor (H : Heap) : Nat := H.length + 1

def runTraversal (H : Heap) (v : JsVal) (g : GState) : Option TSt :=
  procVal H (fuelFor H) v 0 [] ⟨[], [], g.km, g.nextBit⟩

def fmtSeg (p : Nat × Int) : String := "L" ++ natDecimal p.1 ++ ":" ++ intDecimal p.2

/-- The structure signature: segments of every depth `≥ 1`, ascending. -/
def sigOf (st : TSt) : String :=
  joinSep "-" ((st.levels.filter (fun p => 0 < p.1)).map fmtSeg)

/-- `L0:{b}-L1:{b}` with `b = TYPE_BITS[typeof obj] || 0n` — the primitive
fast path of `generateStructureId`. -/
def primId (v : JsVal) : String :=
  "L0:" ++ intDecimal (typeBitsName (typeofStr v)) ++
  "-L1:" ++ intDecimal (typeBitsName (typeofStr v))

/-- The non-cached body of `generateStructureId` on an object reference. -/
def genObj (H : Heap) (a : Addr) (enabled : Bool) (g : GState) : Option (String × GState) :=
  match runTraversal H (.vref a) g with
  | none => none
  | some st =>
    let sig := sigOf st
    let g1 := { g with km := st.km, nextBit := st.nextBit, sigCache := setA g.sigCache a sig }
    let count : Nat := (g1.counter.lookup sig).getD 0
    let l0 : Int :=
      if enabled then (count : Int)
      else (Nat.lor (Nat.lor (charSum sig * 2 ^ 32) count) g1.seed : Nat)
    let levels := lvlSet st.levels 0 l0
    let g2 := if enabled then { g1 with counter := setA g1.counter sig (count + 1) } else g1
    let id := joinSep "-" (levels.map fmtSeg)
    let g3 := if enabled then g2 else { g2 with idCache := setA g2.idCache a id }
    some (id, { g3 with infoCache := eraseA g3.infoCache a })

/-- `generateStructureId(obj, config?)`.  `none` for the config argument means
"not supplied" (fall back to the global config).  The result is `none` only on
fuel exhaustion, which `generateStructureId_total` rules out. -/
def generateStructureId (H : Heap) (v : JsVal) (cfg : Option Bool) (g : GState) :
    Option (String × GState) :=
  let enabled := cfg.getD g.globalCfg
  match v with
  | .vref a =>
    if enabled = false ∧ (g.idCache.lookup a).isSome then
      some ((g.idCache.lookup a).getD "", g)
    else genObj H a enabled g
  | _ => some (primId v, g)

/-- `calculateIdLevels`: number of dash-separated segments. -/
def calculateIdLevels (id : String) : Nat := (jsSplitDash id).length

/-- `getStructureInfo(obj, config?)`.  On a signature-cache miss it runs a
full default-mode generation and strips the `L0` segment; in default mode the
returned id is the string interpolation of the (possibly absent) final-ID
cache entry — an absent entry interpolates to `"undefined"`. -/
def getStructureInfo (H : Heap) (v : JsVal) (cfg : Option Bool) (g : GState) :
    Option (StructInfo × GState) :=
  let enabled := cfg.getD g.globalCfg
  match v with
  | .vref a =>
    match g.infoCache.lookup a with
    | some info => some (info, g)
    | none =>
      let sigG : Option (String × GState) :=
        match g.sigCache.lookup a with
        | some s => some (s, g)
        | none =>
          match generateStructureId H (.vref a) (some false) g with
          | none => none
          | some (id, g') => some (joinSep "-" ((jsSplitDash id).drop 1), g')
      match sigG with
      | none => none
      | some (sig, g1) =>
        let count := (g1.counter.lookup sig).getD 0
        let id :=
          if enabled then "L0:" ++ natDecimal count ++ "-" ++ sig
          else (g1.idCache.lookup a).getD "undefined"
        let info : StructInfo := ⟨id, calculateIdLevels id, count⟩
        some (info, { g1 with infoCache := setA g1.infoCache a info })
  | _ =>
    let id := primId v
    some (⟨id, calculateIdLevels id, 0⟩, g)

/-- `getStructureSignature`. -/
def getStructureSignature (H : Heap) (v : JsVal) (g : GState) : Option (String × GState) :=
  match v with
  | .vref a =>
    match g.sigCache.lookup a with
    | some s => some (s, g)
    | none =>
      match generateStructureId H v (some false) g with
      | none => none
      | some (id, g1) =>
        let sig := joinSep "-" ((jsSplitDash id).drop 1)
        some (sig, { g1 with sigCache := setA g1.sigCache a sig })
  | _ => some ("type:" ++ typeofStr v, g)

/-- `registerStructure`: set (overwrite) a structure's collision counter. -/
def registerStructure (H : Heap) (v : JsVal) (count : Nat) (g : GState) : Option GState :=
  match getStructureSignature H v g with
  | none => none
  | some (sig, g1) => some { g1 with counter := setA g1.counter sig count }

/-- `registerStructureSignatures`. -/
def registerStructureSignatures (regs : List (String × Nat)) (g : GState) : GState :=
  regs.foldl (fun g p => { g with counter := setA g.counter p.1 p.2 }) g

/-- `setStructureIdConfig`. -/
def setStructureIdConfig (b : Bool) (g : GState) : GState := { g with globalCfg := b }

/-- `resetState`: clear registry, counters and all three caches, draw a new
seed (`Math.floor(Math.random() * 10000)` — passed here as a parameter), and
rewind the allocator to `512n`.  The global config is not reset. -/
def resetState (newSeed : Nat) (g : GState) : GState :=
  { km := [], nextBit := 512, counter := [], idCache := [], sigCache := []
    infoCache := [], seed := newSeed, globalCfg := g.globalCfg }

/-- The serializable export format (bigints as decimal strings). -/
structure StructureState where
  keyMap : List (String × String)
  collisionCounters : List (String × Nat)
deriving DecidableEq, Repr

/-- `exportStructureState`. -/
def exportStructureState (g : GState) : StructureState :=
  ⟨g.km.map (fun p => (p.1, intDecimal p.2)), g.counter⟩

/-- Replay the exported key map; stops at the first string `BigInt` rejects,
returning the error message and the state as mutated so far. -/
def importKeys : List (String × String) → GState → Option String × GState
  | [], g => (none, g)
  | (k, bs) :: rest, g =>
    match jsBigInt? bs with
    | none => (some ("Cannot convert " ++ bs ++ " to a BigInt"), g)
    | some b => importKeys rest { g with km := setA g.km k b }

def importCounters : List (String × Nat) → List (String × Nat) → List (String × Nat)
  | [], c => c
  | (s, n) :: rest, c => importCounters rest (setA c s n)

/-- The watermark scan of `importStructureState` (runs after a successful
replay, so the `getD` default is never taken on the reachable path). -/
def maxBitOf (keyMap : List (String × String)) : Int :=
  keyMap.foldl (fun m p => let b := (jsBigInt? p.2).getD 0; if m < b then b else m) 512

/-- `importStructureState`: reset first, replay the key map (an exception
from `BigInt(valueStr)` aborts mid-replay), then replay counters and set the
allocator watermark one doubling past the maximum imported bit. -/
def importStructureState (s : StructureState) (newSeed : Nat) (g : GState) :
    Option String × GState :=
  let g0 := resetState newSeed g
  match importKeys s.keyMap g0 with
  | (some err, g1) => (some err, g1)
  | (none, g1) =>
    let g2 := { g1 with counter := importCounters s.collisionCounters g1.counter }
    (none, { g2 with nextBit := maxBitOf s.keyMap * 2 })

/-! ## Well-formedness and shape isomorphism -/

/-- A value is well formed when any reference points into the heap. -/
def valWfB (H : Heap) : JsVal → Bool
  | .vref a => a < H.length
  | _ => true

def nodeWfB (H : Heap) : HNode → Bool
  | .obj fields => fields.all (fun p => valWfB H p.2)
  | .arr items => items.all (fun v => valWfB H v)

def heapWfB (H : Heap) : Bool := H.all (fun n => nodeWfB H n)

def isRefVal : JsVal → Bool
  | .vref _ => true
  | _ => false

/-- Shape-match of two immediate values relative to an address
correspondence `φ`: same type tag, payloads free, references related. -/
def valMatchB (φ : List (Addr × Addr)) : JsVal → JsVal → Bool
  | .vundef, .vundef => true
  | .vnull, .vnull => true
  | .vbool _, .vbool _ => true
  | .vnum _, .vnum _ => true
  | .vstr _, .vstr _ => true
  | .vbig _, .vbig _ => true
  | .vsym _, .vsym _ => true
  | .vfun _, .vfun _ => true
  | .vref a, .vref b => φ.contains (a, b)
  | _, _ => false

/-- Shape-match of two heap nodes: identical sorted key sets with pointwise
matching field values (order and payloads free), or identical lengths with
pointwise matching items. -/
def nodeMatchB (φ : List (Addr × Addr)) : HNode → HNode → Bool
  | .obj f1, .obj f2 =>
    (sortStrs (f1.map Prod.fst) == sortStrs (f2.map Prod.fst)) &&
    (sortStrs (f1.map Prod.fst)).all (fun k => valMatchB φ (fieldVal f1 k) (fieldVal f2 k))
  | .arr l1, .arr l2 =>
    (l1.length == l2.length) && (l1.zip l2).all (fun p => valMatchB φ p.1 p.2)
  | _, _ => false

/-- `φ` is a (functional, injective) correspondence between heap addresses
whose related nodes match in shape at every depth — the formal reading of
"identical own-key sets, types, and array lengths at every depth, cycle
shapes included". -/
def shapeIsoB (H : Heap) (φ : List (Addr × Addr)) : Bool :=
  (φ.all (fun p => φ.all (fun q =>
    (!(p.1 == q.1) || (p.2 == q.2)) && (!(p.2 == q.2) || (p.1 == q.1))))) &&
  (φ.all (fun p =>
    match H.get? p.1, H.get? p.2 with
    | some n1, some n2 => nodeMatchB φ n1 n2
    | _, _ => false))

/-- An id-cache entry is coherent when regenerating that object fresh in the
current state reproduces it (true of every cache entry produced within the
current epoch with no intervening advance of its collision counter). -/
def Coherent (H : Heap) (g : GState) : Prop :=
  ∀ a id, g.idCache.lookup a = some id → ∃ g', genObj H a false g = some (id, g')

/-- Iterate `generateStructureId` in collision mode over a list of inputs. -/
def genSeq (H : Heap) : List JsVal → GState → Option (List String × GState)
  | [], g => some ([], g)
  | v :: vs, g =>
    match generateStructureId H v (some true) g with
    | none => none
    | some (id, g1) =>
      match genSeq H vs g1 with
      | none => none
      | some (ids, g2) => some (id :: ids, g2)

/-! ## Association-list lemmas -/

theorem lookup_append_left {α β : Type} [BEq α] [LawfulBEq α]
    {m : List (α × β)} {k : α} {b : β} (suffix : List (α × β))
    (h : m.lookup k = some b) : (m ++ suffix).lookup k = some b := by
  induction m with
  | nil => simp [List.lookup] at h
  | cons p rest ih =>
    simp only [List.cons_append, List.lookup] at h ⊢
    by_cases hk : k == p.1
    · simpa [hk] using h
    · simp only [hk] at h ⊢
      exact ih h

theorem lookup_append_none {α β : Type} [BEq α] [LawfulBEq α]
    {m : List (α × β)} {k : α} (suffix : List (α × β))
    (h : m.lookup k = none) : (m ++ suffix).lookup k = suffix.lookup k := by
  induction m with
  | nil => simp
  | cons p rest ih =>
    simp only [List.lookup] at h
    by_cases hk : k == p.1
    · simp [hk] at h
    · simp only [List.cons_append, List.lookup, hk]
      exact ih (by simpa [hk] using h)

theorem lookup_mem {α β : Type} [BEq α] [LawfulBEq α]
    {m : List (α × β)} {k : α} {b : β} (h : m.lookup k = some b) : (k, b) ∈ m := by
  induction m with
  | nil => simp [List.lookup] at h
  | cons p rest ih =>
    simp only [List.lookup] at h
    by_cases hk : k == p.1
    · simp only [hk, Option.some.injEq] at h
      have : k = p.1 := by simpa using hk
      subst this
      subst h
      exact List.mem_cons_self _ _
    · simp only [hk] at h
      exact List.mem_cons_of_mem _ (ih h)

theorem lookup_eq_none_of_not_mem {α β : Type} [BEq α] [LawfulBEq α]
    {m : List (α × β)} {k : α} (h : k ∉ m.map Prod.fst) : m.lookup k = none := by
  induction m with
  | nil => simp [List.lookup]
  | cons p rest ih =>
    simp only [List.map_cons, List.mem_cons] at h
    push_neg at h
    simp only [List.lookup]
    have : (k == p.1) = false := by simpa using h.1
    simp only [this]
    exact ih h.2

theorem mem_keys_of_lookup {α β : Type} [BEq α] [LawfulBEq α]
    {m : List (α × β)} {k : α} {b : β} (h : m.lookup k = some b) :
    k ∈ m.map Prod.fst := by
  have := lookup_mem h
  exact List.mem_map.mpr ⟨(k, b), this, rfl⟩

theorem lookup_setA_self {α β : Type} [BEq α] [LawfulBEq α]
    (m : List (α × β)) (k : α) (v : β) : (setA m k v).lookup k = some v := by
  induction m with
  | nil => simp [setA, List.lookup]
  | cons p rest ih =>
    simp only [setA]
    by_cases hk : p.1 = k
    · simp [hk, List.lookup]
    · have hk1 : (p.1 == k) = false := beq_eq_false_iff_ne.mpr hk
      have hk2 : (k == p.1) = false := beq_eq_false_iff_ne.mpr (fun h => hk h.symm)
      simp [List.lookup, hk1, hk2, ih]

theorem lookup_setA_ne {α β : Type} [BEq α] [LawfulBEq α]
    (m : List (α × β)) (k k' : α) (v : β) (h : k' ≠ k) :
    (setA m k v).lookup k' = m.lookup k' := by
  have hne : (k' == k) = false := beq_eq_false_iff_ne.mpr h
  induction m with
  | nil => simp [setA, List.lookup, hne]
  | cons p rest ih =>
    simp only [setA]
    by_cases hk : p.1 = k
    · subst hk
      simp [List.lookup, hne, beq_self_eq_true]
    · have hk1 : (p.1 == k) = false := beq_eq_false_iff_ne.mpr hk
      rw [if_neg (by simp [hk1])]
      simp only [List.lookup]
      by_cases hk2 : k' = p.1
      · simp [hk2]
      · have hk3 : (k' == p.1) = false := beq_eq_false_iff_ne.mpr hk2
        simp [hk3, ih]

theorem setA_eq_append {α β : Type} [BEq α] [LawfulBEq α]
    (m : List (α × β)) (k : α) (v : β) (h : k ∉ m.map Prod.fst) :
    setA m k v = m ++ [(k, v)] := by
  induction m with
  | nil => simp [setA]
  | cons p rest ih =>
    simp only [List.map_cons, List.mem_cons] at h
    push_neg at h
    have : (p.1 == k) = false := by
      simp only [beq_eq_false_iff_ne]
      exact fun hh => h.1 hh.symm
    simp [setA, this, ih h.2]

/-! ## Level-map lemmas -/

theorem lookup_lvlSet_self (L : List (Nat × Int)) (d : Nat) (x : Int) :
    (lvlSet L d x).lookup d = some x := by
  induction L with
  | nil => simp [lvlSet, List.lookup]
  | cons p rest ih =>
    simp only [lvlSet]
    rcases Nat.lt_trichotomy d p.1 with h | h | h
    · simp [h, List.lookup]
    · simp [h, Nat.lt_irrefl, List.lookup]
    · have h1 : ¬d < p.1 := Nat.lt_asymm h
      have h2 : ¬d = p.1 := Nat.ne_of_gt h
      have h3 : (d == p.1) = false := by simpa using h2
      simp [h1, h2, List.lookup, h3, ih]

theorem lookup_lvlSet_ne (L : List (Nat × Int)) (d d' : Nat) (x : Int) (h : d' ≠ d) :
    (lvlSet L d x).lookup d' = L.lookup d' := by
  induction L with
  | nil => simp [lvlSet, List.lookup, beq_eq_false_iff_ne.mpr h]
  | cons p rest ih =>
    simp only [lvlSet]
    have hne : (d' == d) = false := by simpa using h
    rcases Nat.lt_trichotomy d p.1 with hc | hc | hc
    · simp [hc, List.lookup, hne]
    · subst hc
      simp [Nat.lt_irrefl, List.lookup, hne]
    · have h1 : ¬d < p.1 := Nat.lt_asymm hc
      have h2 : ¬d = p.1 := Nat.ne_of_gt hc
      simp only [h1, if_false, h2, List.lookup]
      by_cases hk : d' == p.1
      · simp [hk]
      · simp [hk, ih]

def lvlSorted (L : List (Nat × Int)) : Prop :=
  L.Pairwise (fun p q => p.1 < q.1)

theorem mem_lvlSet {L : List (Nat × Int)} {q : Nat × Int} {d : Nat} {x : Int}
    (h : q ∈ lvlSet L d x) : q.1 = d ∨ q ∈ L := by
  induction L with
  | nil =>
    simp only [lvlSet, List.mem_singleton] at h
    exact Or.inl (by rw [h])
  | cons p rest ih =>
    simp only [lvlSet] at h
    rcases Nat.lt_trichotomy d p.1 with hc | hc | hc
    · rw [if_pos hc] at h
      rcases List.mem_cons.mp h with h' | h'
      · exact Or.inl (by rw [h'])
      · exact Or.inr h'
    · rw [if_neg (by omega), if_pos hc] at h
      rcases List.mem_cons.mp h with h' | h'
      · exact Or.inl (by rw [h', hc])
      · exact Or.inr (List.mem_cons_of_mem _ h')
    · rw [if_neg (by omega), if_neg (by omega)] at h
      rcases List.mem_cons.mp h with h' | h'
      · exact Or.inr (h' ▸ List.mem_cons_self _ _)
      · rcases ih h' with h2 | h2
        · exact Or.inl h2
        · exact Or.inr (List.mem_cons_of_mem _ h2)

theorem lvlSet_sorted {L : List (Nat × Int)} (d : Nat) (x : Int)
    (h : lvlSorted L) : lvlSorted (lvlSet L d x) := by
  induction L with
  | nil => simp [lvlSet, lvlSorted]
  | cons p rest ih =>
    simp only [lvlSorted, List.pairwise_cons] at h
    rcases Nat.lt_trichotomy d p.1 with hc | hc | hc
    · simp only [lvlSet, hc, if_true]
      refine List.Pairwise.cons ?_ (List.Pairwise.cons h.1 h.2)
      intro q hq
      rcases List.mem_cons.mp hq with rfl | hq'
      · exact hc
      · exact Nat.lt_trans hc (h.1 q hq')
    · subst hc
      simp only [lvlSet, Nat.lt_irrefl, if_false, if_pos rfl]
      exact List.Pairwise.cons h.1 h.2
    · have h1 : ¬d < p.1 := Nat.lt_asymm hc
      have h2 : ¬d = p.1 := Nat.ne_of_gt hc
      simp only [lvlSet, h1, if_false, h2]
      refine List.Pairwise.cons ?_ (ih h.2)
      intro q hq
      rcases mem_lvlSet hq with h' | h'
      · omega
      · exact h.1 q h'

/-! ## Decimal numeral lemmas -/

def digitList : List Char := ['0', '1', '2', '3', '4', '5', '6', '7', '8', '9']

theorem digitChar_mem (n : Nat) : digitChar n ∈ digitList := by
  match n with
  | 0 => decide
  | 1 => decide
  | 2 => decide
  | 3 => decide
  | 4 => decide
  | 5 => decide
  | 6 => decide
  | 7 => decide
  | 8 => decide
  | _ + 9 =>
    show '9' ∈ digitList
    decide

theorem mem_digitList_ne_dash {c : Char} (h : c ∈ digitList) : c ≠ '-' ∧ c ≠ '+' := by
  fin_cases h <;> exact ⟨by decide, by decide⟩

theorem digitVal?_digitChar {n : Nat} (h : n < 10) : digitVal? (digitChar n) = some n := by
  interval_cases n <;> decide

theorem natDecimalGo_ne_nil (fuel n : Nat) (h : fuel ≠ 0) : natDecimalGo fuel n ≠ [] := by
  match fuel with
  | 0 => exact absurd rfl h
  | fuel + 1 =>
    simp only [natDecimalGo]
    by_cases hn : n < 10
    · simp [hn]
    · simp [hn]

theorem mem_natDecimalGo_digit {fuel n : Nat} {c : Char}
    (h : c ∈ natDecimalGo fuel n) : c ∈ digitList := by
  induction fuel using Nat.strong_induction_on generalizing n with
  | _ fuel ih =>
    match fuel with
    | 0 => simp [natDecimalGo] at h
    | fuel + 1 =>
      simp only [natDecimalGo] at h
      by_cases hn : n < 10
      · rw [if_pos hn] at h
        simp only [List.mem_singleton] at h
        exact h ▸ digitChar_mem n
      · rw [if_neg hn] at h
        rcases List.mem_append.mp h with h' | h'
        · exact ih fuel (Nat.lt_succ_self _) h'
        · simp only [List.mem_singleton] at h'
          exact h' ▸ digitChar_mem _

theorem parseNatGo_append (l1 l2 : List Char) (a : Nat) :
    parseNatGo (l1 ++ l2) a =
      match parseNatGo l1 a with
      | none => none
      | some m => parseNatGo l2 m := by
  induction l1 generalizing a with
  | nil => simp [parseNatGo]
  | cons c cs ih =>
    simp only [List.cons_append, parseNatGo]
    match digitVal? c with
    | none => rfl
    | some d => exact ih _

theorem parse_natDecimalGo {fuel n : Nat} (h : n < fuel) :
    parseNatGo (natDecimalGo fuel n) 0 = some n := by
  induction fuel using Nat.strong_induction_on generalizing n with
  | _ fuel ih =>
    match fuel with
    | 0 => omega
    | fuel + 1 =>
      simp only [natDecimalGo]
      by_cases hn : n < 10
      · rw [if_pos hn]
        simp [parseNatGo, digitVal?_digitChar hn]
      · rw [if_neg hn]
        rw [parseNatGo_append]
        have hdiv : n / 10 < fuel := by omega
        rw [ih fuel (Nat.lt_succ_self _) hdiv]
        have hmod : n % 10 < 10 := Nat.mod_lt _ (by omega)
        simp [parseNatGo, digitVal?_digitChar hmod]
        omega

theorem parse_natDecimal (n : Nat) : parseNatGo (natDecimal n).data 0 = some n :=
  parse_natDecimalGo (Nat.lt_succ_self n)

theorem natDecimal_data (n : Nat) : (natDecimal n).data = natDecimalGo (n + 1) n := rfl

theorem natDecimal_ne_nil (n : Nat) : (natDecimal n).data ≠ [] :=
  natDecimalGo_ne_nil _ _ (Nat.succ_ne_zero n)

theorem mem_natDecimal_digit {n : Nat} {c : Char} (h : c ∈ (natDecimal n).data) :
    c ∈ digitList := mem_natDecimalGo_digit h

theorem jsBigInt?_natDecimal (n : Nat) : jsBigInt? (natDecimal n) = some (n : Int) := by
  rcases heq : (natDecimal n).data with _ | ⟨c, cs⟩
  · exact absurd heq (natDecimal_ne_nil n)
  · have hc : c ∈ digitList := mem_natDecimal_digit (heq ▸ List.mem_cons_self c cs)
    have hdash := mem_digitList_ne_dash hc
    simp only [jsBigInt?, heq]
    rw [if_neg hdash.1, if_neg hdash.2]
    have hp := parse_natDecimal n
    rw [heq] at hp
    rw [hp]
    rfl

theorem jsBigInt?_intDecimal (b : Int) : jsBigInt? (intDecimal b) = some b := by
  by_cases hb : b < 0
  · simp only [intDecimal, if_pos hb]
    have hdata : ("-" ++ natDecimal b.natAbs).data = '-' :: (natDecimal b.natAbs).data := rfl
    simp only [jsBigInt?, hdata]
    rw [if_pos trivial, if_neg (natDecimal_ne_nil _), parse_natDecimal]
    have hb2 : -(b.natAbs : Int) = b := by omega
    simp [hb2, abs_of_neg hb]
  · simp only [intDecimal, if_neg hb]
    rw [jsBigInt?_natDecimal]
    congr 1
    omega

theorem natDecimal_inj {m n : Nat} (h : natDecimal m = natDecimal n) : m = n := by
  have hm := parse_natDecimal m
  rw [h, parse_natDecimal n] at hm
  exact (Option.some.injEq _ _).mp hm.symm

/-! ## Traversal postconditions: registry monotonicity and invariants -/

/-- `m2` preserves every binding of `m1` (the key registry only grows and
never rebinds a key). -/
def kmLe (m1 m2 : List (String × Int)) : Prop :=
  ∀ k b, m1.lookup k = some b → m2.lookup k = some b

theorem kmLe_refl (m : List (String × Int)) : kmLe m m := fun _ _ h => h

theorem kmLe_trans {m1 m2 m3 : List (String × Int)} (h1 : kmLe m1 m2) (h2 : kmLe m2 m3) :
    kmLe m1 m3 := fun k b h => h2 k b (h1 k b h)

/-- The visited map holds pairwise-distinct addresses of the heap. -/
def omapOK (H : Heap) (m : List (Addr × String)) : Prop :=
  (m.map Prod.fst).Nodup ∧ ∀ p ∈ m, p.1 < H.length

theorem lookup_isSome_of_mem_keys {α β : Type} [BEq α] [LawfulBEq α]
    {m : List (α × β)} {k : α} (h : k ∈ m.map Prod.fst) :
    ∃ b, m.lookup k = some b := by
  induction m with
  | nil => simp at h
  | cons p rest ih =>
    simp only [List.map_cons, List.mem_cons] at h
    by_cases hk : k = p.1
    · exact ⟨p.2, by simp [List.lookup, hk]⟩
    · have hk' : (k == p.1) = false := beq_eq_false_iff_ne.mpr hk
      rcases h with h | h
      · exact absurd h hk
      · rcases ih h with ⟨b, hb⟩
        exact ⟨b, by simp [List.lookup, hk', hb]⟩

theorem not_mem_keys_of_lookup_none {α β : Type} [BEq α] [LawfulBEq α]
    {m : List (α × β)} {k : α} (h : m.lookup k = none) :
    k ∉ m.map Prod.fst := by
  intro hmem
  rcases lookup_isSome_of_mem_keys hmem with ⟨b, hb⟩
  rw [h] at hb
  exact Option.noConfusion hb

/-- What any successful traversal step guarantees about its state change. -/
def TPost (H : Heap) (st st' : TSt) : Prop :=
  kmLe st.km st'.km ∧
  (∀ a s, st.omap.lookup a = some s → st'.omap.lookup a = some s) ∧
  st.omap.length ≤ st'.omap.length ∧
  (omapOK H st.omap → omapOK H st'.omap) ∧
  (lvlSorted st.levels → lvlSorted st'.levels)

theorem TPost_refl (H : Heap) (st : TSt) : TPost H st st :=
  ⟨kmLe_refl _, fun _ _ h => h, Nat.le_refl _, id, id⟩

theorem TPost_trans {H : Heap} {s1 s2 s3 : TSt} (h1 : TPost H s1 s2) (h2 : TPost H s2 s3) :
    TPost H s1 s3 :=
  ⟨kmLe_trans h1.1 h2.1,
   fun a s h => h2.2.1 a s (h1.2.1 a s h),
   Nat.le_trans h1.2.2.1 h2.2.2.1,
   fun h => h2.2.2.2.1 (h1.2.2.2.1 h),
   fun h => h2.2.2.2.2 (h1.2.2.2.2 h)⟩

theorem lvlInit_sorted {L : List (Nat × Int)} (d : Nat) (h : lvlSorted L) :
    lvlSorted (lvlInit L d) := by
  unfold lvlInit
  match L.lookup d with
  | none => exact lvlSet_sorted _ _ h
  | some v =>
    by_cases hv : v = 0
    · simp only [hv, if_pos rfl]
      exact lvlSet_sorted _ _ h
    · simp only [if_neg hv]
      exact h

theorem lvlAdd_sorted {L : List (Nat × Int)} (d : Nat) (x : Int) (h : lvlSorted L) :
    lvlSorted (lvlAdd L d x) := lvlSet_sorted _ _ h

theorem TPost_levels {H : Heap} {st : TSt} {L : List (Nat × Int)}
    (h : lvlSorted st.levels → lvlSorted L) : TPost H st { st with levels := L } :=
  ⟨kmLe_refl _, fun _ _ h => h, Nat.le_refl _, id, h⟩

theorem tGetBit_post (H : Heap) (st : TSt) (k : String) : TPost H st (tGetBit st k).2 := by
  unfold tGetBit
  match h : st.km.lookup k with
  | some b => exact TPost_refl H st
  | none =>
    refine ⟨?_, fun _ _ h => h, Nat.le_refl _, id, id⟩
    intro k' b' hk'
    exact lookup_append_left _ hk'

theorem tGetBit_lookup_self (st : TSt) (k : String) :
    (tGetBit st k).2.km.lookup k = some (tGetBit st k).1 := by
  unfold tGetBit
  match h : st.km.lookup k with
  | some b => exact h
  | none =>
    simp only
    rw [lookup_append_none _ h]
    simp [List.lookup]

theorem foldSteps_post {α : Type} {H : Heap} {step : TSt → α → Option TSt}
    (hstep : ∀ st x st', step st x = some st' → TPost H st st') :
    ∀ (xs : List α) (st st' : TSt), foldSteps step xs st = some st' → TPost H st st' := by
  intro xs
  induction xs with
  | nil =>
    intro st st' h
    simp only [foldSteps] at h
    cases h
    exact TPost_refl H st
  | cons x xs ih =>
    intro st st' h
    simp only [foldSteps] at h
    match heq : step st x with
    | none => rw [heq] at h; exact Option.noConfusion h
    | some st1 =>
      rw [heq] at h
      exact TPost_trans (hstep st x st1 heq) (ih st1 st' h)

theorem TPost_omap_cons {H : Heap} {st : TSt} {a : Addr} {sig : String}
    (hnone : st.omap.lookup a = none) (ha : a < H.length) :
    TPost H st { st with omap := (a, sig) :: st.omap } := by
  refine ⟨kmLe_refl _, ?_, by simp, ?_, id⟩
  · intro a' s h
    have hne : a' ≠ a := by
      intro he
      rw [he, hnone] at h
      exact Option.noConfusion h
    simp [List.lookup, beq_eq_false_iff_ne.mpr hne, h]
  · rintro ⟨hn, hb⟩
    refine ⟨?_, ?_⟩
    · simp only [List.map_cons]
      exact List.nodup_cons.mpr ⟨not_mem_keys_of_lookup_none hnone, hn⟩
    · intro p hp
      rcases List.mem_cons.mp hp with h' | h'
      · rw [h']
        exact ha
      · exact hb p h'

theorem TPost_getBit_bump (H : Heap) (st : TSt) (k : String) (level : Nat) :
    TPost H st (bump (tGetBit st k).2 level (tGetBit st k).1) :=
  TPost_trans (tGetBit_post H st k) (TPost_levels (fun hs => lvlAdd_sorted _ _ hs))

/-- Every successful traversal only grows the registry (preserving existing
bindings), only grows the visited map, and keeps the level map sorted. -/
theorem procVal_post (H : Heap) :
    ∀ fuel v level path st st', procVal H fuel v level path st = some st' → TPost H st st' := by
  intro fuel
  induction fuel with
  | zero =>
    intro v level path st st' h
    simp [procVal] at h
  | succ fuel ih =>
    intro v level path st st' h
    have hlvl2 : ∀ (x : Int), TPost H st (bump { st with levels := lvlInit st.levels level } level x) :=
      fun x => TPost_levels (fun hs => lvlAdd_sorted _ _ (lvlInit_sorted _ hs))
    cases v with
    | vref a =>
      simp only [procVal] at h
      split at h
      · cases h
        exact hlvl2 _
      · rename_i node hnode
        have ha : a < H.length := by
          rcases List.get?_eq_some.mp hnode with ⟨hl, _⟩
          exact hl
        split at h
        · rename_i circPath hvis
          cases h
          exact TPost_trans (hlvl2 _) (TPost_getBit_bump H _ _ _)
        · rename_i hvis
          split at h
          · have h1 := foldSteps_post
              (fun t x t' ht => TPost_trans (TPost_getBit_bump H t x level) (ih _ _ _ _ _ ht))
              _ _ _ h
            exact TPost_trans
              (TPost_trans (TPost_trans (hlvl2 _) (TPost_omap_cons hvis ha))
                (TPost_getBit_bump H _ _ _)) h1
          · have h1 := foldSteps_post
              (fun t x t' ht => TPost_trans (TPost_getBit_bump H t _ level) (ih _ _ _ _ _ ht))
              _ _ _ h
            exact TPost_trans
              (TPost_trans
                (TPost_trans (TPost_trans (hlvl2 _) (TPost_omap_cons hvis ha))
                  (TPost_getBit_bump H _ _ _))
                (TPost_getBit_bump H _ _ _)) h1
    | vundef => simp only [procVal] at h; cases h; exact hlvl2 _
    | vnull => simp only [procVal] at h; cases h; exact hlvl2 _
    | vbool b => simp only [procVal] at h; cases h; exact hlvl2 _
    | vnum n => simp only [procVal] at h; cases h; exact hlvl2 _
    | vstr s => simp only [procVal] at h; cases h; exact hlvl2 _
    | vbig n => simp only [procVal] at h; cases h; exact hlvl2 _
    | vsym n => simp only [procVal] at h; cases h; exact hlvl2 _
    | vfun n => simp only [procVal] at h; cases h; exact hlvl2 _

/-! ## Adequacy: the chosen fuel always suffices -/

theorem foldSteps_some {α : Type} {step : TSt → α → Option TSt} {P : TSt → Prop} :
    ∀ (xs : List α), (∀ st x, x ∈ xs → P st → ∃ st', step st x = some st' ∧ P st') →
    ∀ st, P st → ∃ st', foldSteps step xs st = some st' ∧ P st' := by
  intro xs
  induction xs with
  | nil =>
    intro _ st hP
    exact ⟨st, rfl, hP⟩
  | cons x xs ih =>
    intro hstep st hP
    rcases hstep st x (List.mem_cons_self _ _) hP with ⟨st1, h1, hP1⟩
    rcases ih (fun t y hy ht => hstep t y (List.mem_cons_of_mem _ hy) ht) st1 hP1 with
      ⟨st', h2, hP2⟩
    refine ⟨st', ?_, hP2⟩
    simp only [foldSteps, h1]
    exact h2

theorem fieldVal_wf {H : Heap} {fields : List (String × JsVal)} (k : String)
    (hf : nodeWfB H (HNode.obj fields) = true) : valWfB H (fieldVal fields k) = true := by
  unfold fieldVal
  match hl : fields.lookup k with
  | none => rfl
  | some v =>
    have hmem := lookup_mem hl
    unfold nodeWfB at hf
    rw [List.all_eq_true] at hf
    simpa using hf (k, v) hmem

theorem mem_enumFrom_snd {α : Type} {l : List α} :
    ∀ {n : Nat} {p : Nat × α}, p ∈ List.enumFrom n l → p.2 ∈ l := by
  induction l with
  | nil => intro n p h; simp [List.enumFrom] at h
  | cons x xs ih =>
    intro n p h
    simp only [List.enumFrom, List.mem_cons] at h
    rcases h with h | h
    · rw [h]
      exact List.mem_cons_self _ _
    · exact List.mem_cons_of_mem _ (ih h)

theorem itemVal_wf {H : Heap} {items : List JsVal} {v : JsVal} (hv : v ∈ items)
    (hf : nodeWfB H (HNode.arr items) = true) : valWfB H v = true := by
  unfold nodeWfB at hf
  rw [List.all_eq_true] at hf
  exact hf v hv

theorem tGetBit_omap (st : TSt) (k : String) : (tGetBit st k).2.omap = st.omap := by
  unfold tGetBit
  match st.km.lookup k with
  | some b => rfl
  | none => rfl

theorem tGetBit_levels (st : TSt) (k : String) : (tGetBit st k).2.levels = st.levels := by
  unfold tGetBit
  match st.km.lookup k with
  | some b => rfl
  | none => rfl

theorem bump_getBit_omap (st : TSt) (k : String) (level : Nat) :
    (bump (tGetBit st k).2 level (tGetBit st k).1).omap = st.omap := tGetBit_omap st k

/-- With fuel `H.length + 1 - |visited|`-adequate, the traversal succeeds:
the recursion depth is bounded because every entered reference is freshly
marked in the call-scoped visited map. -/
theorem procVal_some (H : Heap) (hH : heapWfB H = true) :
    ∀ fuel v level path st, valWfB H v = true → omapOK H st.omap →
      H.length + 1 ≤ fuel + st.omap.length →
      ∃ st', procVal H fuel v level path st = some st' := by
  intro fuel
  induction fuel with
  | zero =>
    intro v level path st _ hok hbound
    exfalso
    have hlen : st.omap.length ≤ H.length := by
      have h1 : (st.omap.map Prod.fst).Nodup := hok.1
      have hsub : (st.omap.map Prod.fst).toFinset ⊆ Finset.range H.length := by
        intro x hx
        rw [List.mem_toFinset] at hx
        rcases List.mem_map.mp hx with ⟨p, hp, rfl⟩
        exact Finset.mem_range.mpr (hok.2 p hp)
      have hcard := Finset.card_le_card hsub
      rw [List.toFinset_card_of_nodup h1, Finset.card_range] at hcard
      calc st.omap.length = (st.omap.map Prod.fst).length := (List.length_map _ _).symm
        _ ≤ H.length := hcard
    omega
  | succ fuel ih =>
    intro v level path st hv hok hbound
    cases v with
    | vref a =>
      simp only [procVal]
      have ha : a < H.length := by
        have hv' := hv
        simp only [valWfB, decide_eq_true_eq] at hv'
        exact hv'
      match hnode : H.get? a with
      | none =>
        exact absurd (List.get?_eq_none.mp hnode) (Nat.not_le.mpr ha)
      | some node =>
        have hnodeWf : nodeWfB H node = true := by
          have hmem : node ∈ H := List.get?_mem hnode
          rw [heapWfB, List.all_eq_true] at hH
          exact hH node hmem
        set st2 := bump { st with levels := lvlInit st.levels level } level
          (typeBitsName (getTypeName H (.vref a))) with hst2
        have hok2 : omapOK H st2.omap := hok
        match hvis : st2.omap.lookup a with
        | some circPath => exact ⟨_, rfl⟩
        | none =>
          have hfresh : a ∉ st2.omap.map Prod.fst := not_mem_keys_of_lookup_none hvis
          have hok3 : omapOK H ((a, nodeSignature node path) :: st2.omap) := by
            refine ⟨?_, ?_⟩
            · simp only [List.map_cons]
              exact List.nodup_cons.mpr ⟨hfresh, hok2.1⟩
            · intro p hp
              rcases List.mem_cons.mp hp with h' | h'
              · rw [h']; exact ha
              · exact hok2.2 p h'
          match node with
          | .obj fields =>
            have hstep : ∀ (t : TSt) (k : String), k ∈ sortStrs (fields.map Prod.fst) →
                (omapOK H t.omap ∧ H.length + 1 ≤ fuel + t.omap.length) →
                ∃ t', procVal H fuel (fieldVal fields k) (level + 1) (path ++ [k])
                    (bump (tGetBit t k).2 level (tGetBit t k).1) = some t' ∧
                  (omapOK H t'.omap ∧ H.length + 1 ≤ fuel + t'.omap.length) := by
              intro t k _ hP
              have hchild : valWfB H (fieldVal fields k) = true := fieldVal_wf k hnodeWf
              have homap := bump_getBit_omap t k level
              rcases ih (fieldVal fields k) (level + 1) (path ++ [k])
                (bump (tGetBit t k).2 level (tGetBit t k).1) hchild (by rw [homap]; exact hP.1)
                (by rw [homap]; exact hP.2) with ⟨t', ht'⟩
              have hpost := procVal_post H fuel _ _ _ _ _ ht'
              refine ⟨t', ht', hpost.2.2.2.1 (by rw [homap]; exact hP.1), ?_⟩
              have hlen := hpost.2.2.1
              rw [homap] at hlen
              have hb := hP.2
              omega
            refine (foldSteps_some _ hstep _ ?_).imp (fun st' h => h.1)
            rw [bump_getBit_omap]
            refine ⟨hok3, ?_⟩
            show H.length + 1 ≤ fuel + ((a, nodeSignature (HNode.obj fields) path) :: st2.omap).length
            have hlen2 : st2.omap.length = st.omap.length := rfl
            simp only [List.length_cons, hlen2]
            omega
          | .arr items =>
            have hstep : ∀ (t : TSt) (ix : Nat × JsVal), ix ∈ items.enum →
                (omapOK H t.omap ∧ H.length + 1 ≤ fuel + t.omap.length) →
                ∃ t', procVal H fuel ix.2 (level + 1) (path ++ ["[" ++ natDecimal ix.1 ++ "]"])
                    (bump (tGetBit t ("[" ++ natDecimal ix.1 ++ "]")).2 level
                      (tGetBit t ("[" ++ natDecimal ix.1 ++ "]")).1) = some t' ∧
                  (omapOK H t'.omap ∧ H.length + 1 ≤ fuel + t'.omap.length) := by
              intro t ix hix hP
              have hchild : valWfB H ix.2 = true := itemVal_wf (mem_enumFrom_snd hix) hnodeWf
              have homap := bump_getBit_omap t ("[" ++ natDecimal ix.1 ++ "]") level
              rcases ih ix.2 (level + 1) (path ++ ["[" ++ natDecimal ix.1 ++ "]"])
                (bump (tGetBit t ("[" ++ natDecimal ix.1 ++ "]")).2 level
                  (tGetBit t ("[" ++ natDecimal ix.1 ++ "]")).1) hchild
                (by rw [homap]; exact hP.1) (by rw [homap]; exact hP.2) with ⟨t', ht'⟩
              have hpost := procVal_post H fuel _ _ _ _ _ ht'
              refine ⟨t', ht', hpost.2.2.2.1 (by rw [homap]; exact hP.1), ?_⟩
              have hlen := hpost.2.2.1
              rw [homap] at hlen
              have hb := hP.2
              omega
            refine (foldSteps_some _ hstep _ ?_).imp (fun st' h => h.1)
            rw [bump_getBit_omap, bump_getBit_omap]
            refine ⟨hok3, ?_⟩
            show H.length + 1 ≤ fuel + ((a, nodeSignature (HNode.arr items) path) :: st2.omap).length
            have hlen2 : st2.omap.length = st.omap.length := rfl
            simp only [List.length_cons, hlen2]
            omega
    | vundef => exact ⟨_, rfl⟩
    | vnull => exact ⟨_, rfl⟩
    | vbool b => exact ⟨_, rfl⟩
    | vnum n => exact ⟨_, rfl⟩
    | vstr s => exact ⟨_, rfl⟩
    | vbig n => exact ⟨_, rfl⟩
    | vsym n => exact ⟨_, rfl⟩
    | vfun n => exact ⟨_, rfl⟩

/-! ## Replay: once its keys are registered, a traversal is reproducible

Running the same value again from any registry that preserves the bindings
of the first run's final registry produces the same visited map and level
hashes, and allocates nothing. -/

theorem tGetBit_replay (st : TSt) (k : String) (T : List (String × Int)) (nb : Int)
    (h : kmLe (tGetBit st k).2.km T) :
    tGetBit { st with km := T, nextBit := nb } k =
      ((tGetBit st k).1, { (tGetBit st k).2 with km := T, nextBit := nb }) := by
  unfold tGetBit at h ⊢
  match heq : st.km.lookup k with
  | some b =>
    rw [heq] at h
    have hT : T.lookup k = some b := h k b heq
    simp only [heq, hT]
  | none =>
    rw [heq] at h
    have hself : (st.km ++ [(k, st.nextBit)]).lookup k = some st.nextBit := by
      rw [lookup_append_none _ heq]
      simp [List.lookup]
    have hT : T.lookup k = some st.nextBit := h k _ hself
    simp only [heq, hT]

theorem foldSteps_replay {α : Type} {H : Heap} {step : TSt → α → Option TSt}
    (hpost : ∀ st x st', step st x = some st' → TPost H st st')
    (hrep : ∀ st x st' T nb, step st x = some st' → kmLe st'.km T →
      step { st with km := T, nextBit := nb } x = some { st' with km := T, nextBit := nb }) :
    ∀ (xs : List α) (st st' : TSt) (T : List (String × Int)) (nb : Int),
      foldSteps step xs st = some st' → kmLe st'.km T →
      foldSteps step xs { st with km := T, nextBit := nb } =
        some { st' with km := T, nextBit := nb } := by
  intro xs
  induction xs with
  | nil =>
    intro st st' T nb h hT
    simp only [foldSteps] at h ⊢
    cases h
    rfl
  | cons x xs ih =>
    intro st st' T nb h hT
    simp only [foldSteps] at h ⊢
    match heq : step st x with
    | none => rw [heq] at h; exact Option.noConfusion h
    | some st1 =>
      rw [heq] at h
      have hk1 : kmLe st1.km st'.km := (foldSteps_post hpost xs st1 st' h).1
      rw [hrep st x st1 T nb heq (kmLe_trans hk1 hT)]
      exact ih st1 st' T nb h hT

theorem TPost_getBit_bump2 (H : Heap) (t : TSt) (k : String) (level : Nat) :
    TPost H t ⟨t.omap, lvlAdd t.levels level (tGetBit t k).1,
      (tGetBit t k).2.km, (tGetBit t k).2.nextBit⟩ := by
  have h := TPost_getBit_bump H t k level
  have e : bump (tGetBit t k).2 level (tGetBit t k).1 =
      ⟨t.omap, lvlAdd t.levels level (tGetBit t k).1,
        (tGetBit t k).2.km, (tGetBit t k).2.nextBit⟩ := by
    simp only [bump, tGetBit_omap, tGetBit_levels]
  rw [e] at h
  exact h

theorem procVal_replay (H : Heap) :
    ∀ fuel v level path st st' (T : List (String × Int)) (nb : Int),
      procVal H fuel v level path st = some st' → kmLe st'.km T →
      procVal H fuel v level path { st with km := T, nextBit := nb } =
        some { st' with km := T, nextBit := nb } := by
  intro fuel
  induction fuel with
  | zero =>
    intro v level path st st' T nb h
    simp [procVal] at h
  | succ fuel ih =>
    intro v level path st st' T nb h hT
    cases v with
    | vref a =>
      simp only [procVal, bump, tGetBit_omap, tGetBit_levels] at h ⊢
      split at h
      · cases h
        rfl
      · rename_i node hnode
        split at h
        · rename_i circPath hvis
          cases h
          rw [tGetBit_replay
            ⟨st.omap, lvlAdd (lvlInit st.levels level) level
              (typeBitsName (getTypeName H (.vref a))), st.km, st.nextBit⟩
            ("circular:" ++ circPath) T nb hT]
        · rename_i hvis
          split at h
          · rename_i fields heqn
            have hpostStep : ∀ (t : TSt) (k : String) (t' : TSt),
                procVal H fuel (fieldVal heqn k) (level + 1) (path ++ [k])
                  ⟨t.omap, lvlAdd t.levels level (tGetBit t k).1,
                    (tGetBit t k).2.km, (tGetBit t k).2.nextBit⟩ = some t' →
                TPost H t t' :=
              fun t k t' ht =>
                TPost_trans (TPost_getBit_bump2 H t k level) (procVal_post H fuel _ _ _ _ _ ht)
            have hstepRep : ∀ (t : TSt) (k : String) (t' : TSt)
                (T' : List (String × Int)) (nb' : Int),
                procVal H fuel (fieldVal heqn k) (level + 1) (path ++ [k])
                  ⟨t.omap, lvlAdd t.levels level (tGetBit t k).1,
                    (tGetBit t k).2.km, (tGetBit t k).2.nextBit⟩ = some t' →
                kmLe t'.km T' →
                procVal H fuel (fieldVal heqn k) (level + 1) (path ++ [k])
                  ⟨t.omap, lvlAdd t.levels level (tGetBit ⟨t.omap, t.levels, T', nb'⟩ k).1,
                    (tGetBit ⟨t.omap, t.levels, T', nb'⟩ k).2.km,
                    (tGetBit ⟨t.omap, t.levels, T', nb'⟩ k).2.nextBit⟩ =
                  some ⟨t'.omap, t'.levels, T', nb'⟩ := by
              intro t k t' T' nb' hs hk
              have hkm2 : kmLe (tGetBit t k).2.km T' := by
                have hp := procVal_post H fuel _ _ _ _ _ hs
                exact kmLe_trans hp.1 hk
              rw [tGetBit_replay t k T' nb' hkm2]
              exact ih _ _ _ _ _ _ _ hs hk
            have hkmT : kmLe (tGetBit
                ⟨(a, nodeSignature (HNode.obj heqn) path) :: st.omap,
                  lvlAdd (lvlInit st.levels level) level
                    (typeBitsName (getTypeName H (.vref a))), st.km, st.nextBit⟩
                ("type:" ++ getTypeName H (.vref a))).2.km T :=
              kmLe_trans (foldSteps_post hpostStep _ _ _ h).1 hT
            rw [tGetBit_replay
              ⟨(a, nodeSignature (HNode.obj heqn) path) :: st.omap,
                lvlAdd (lvlInit st.levels level) level
                  (typeBitsName (getTypeName H (.vref a))), st.km, st.nextBit⟩
              ("type:" ++ getTypeName H (.vref a)) T nb hkmT]
            exact foldSteps_replay hpostStep hstepRep _ _ _ _ _ h hT
          · rename_i items heqn
            have hpostStep : ∀ (t : TSt) (ix : Nat × JsVal) (t' : TSt),
                procVal H fuel ix.2 (level + 1) (path ++ ["[" ++ natDecimal ix.1 ++ "]"])
                  ⟨t.omap, lvlAdd t.levels level (tGetBit t ("[" ++ natDecimal ix.1 ++ "]")).1,
                    (tGetBit t ("[" ++ natDecimal ix.1 ++ "]")).2.km,
                    (tGetBit t ("[" ++ natDecimal ix.1 ++ "]")).2.nextBit⟩ = some t' →
                TPost H t t' :=
              fun t ix t' ht =>
                TPost_trans (TPost_getBit_bump2 H t _ level) (procVal_post H fuel _ _ _ _ _ ht)
            have hstepRep : ∀ (t : TSt) (ix : Nat × JsVal) (t' : TSt)
                (T' : List (String × Int)) (nb' : Int),
                procVal H fuel ix.2 (level + 1) (path ++ ["[" ++ natDecimal ix.1 ++ "]"])
                  ⟨t.omap, lvlAdd t.levels level (tGetBit t ("[" ++ natDecimal ix.1 ++ "]")).1,
                    (tGetBit t ("[" ++ natDecimal ix.1 ++ "]")).2.km,
                    (tGetBit t ("[" ++ natDecimal ix.1 ++ "]")).2.nextBit⟩ = some t' →
                kmLe t'.km T' →
                procVal H fuel ix.2 (level + 1) (path ++ ["[" ++ natDecimal ix.1 ++ "]"])
                  ⟨t.omap, lvlAdd t.levels level
                      (tGetBit ⟨t.omap, t.levels, T', nb'⟩ ("[" ++ natDecimal ix.1 ++ "]")).1,
                    (tGetBit ⟨t.omap, t.levels, T', nb'⟩ ("[" ++ natDecimal ix.1 ++ "]")).2.km,
                    (tGetBit ⟨t.omap, t.levels, T', nb'⟩ ("[" ++ natDecimal ix.1 ++ "]")).2.nextBit⟩ =
                  some ⟨t'.omap, t'.levels, T', nb'⟩ := by
              intro t ix t' T' nb' hs hk
              have hkm2 : kmLe (tGetBit t ("[" ++ natDecimal ix.1 ++ "]")).2.km T' := by
                have hp := procVal_post H fuel _ _ _ _ _ hs
                exact kmLe_trans hp.1 hk
              rw [tGetBit_replay t ("[" ++ natDecimal ix.1 ++ "]") T' nb' hkm2]
              exact ih _ _ _ _ _ _ _ hs hk
            have hkm1 : kmLe (tGetBit
                ⟨(a, nodeSignature (HNode.arr heqn) path) :: st.omap,
                  lvlAdd (lvlInit st.levels level) level
                    (typeBitsName (getTypeName H (.vref a))), st.km, st.nextBit⟩
                ("type:" ++ getTypeName H (.vref a))).2.km T := by
              have h5 := (tGetBit_post H
                ⟨(a, nodeSignature (HNode.arr heqn) path) :: st.omap,
                  lvlAdd (lvlAdd (lvlInit st.levels level) level
                    (typeBitsName (getTypeName H (.vref a)))) level
                    (tGetBit
                      ⟨(a, nodeSignature (HNode.arr heqn) path) :: st.omap,
                        lvlAdd (lvlInit st.levels level) level
                          (typeBitsName (getTypeName H (.vref a))), st.km, st.nextBit⟩
                      ("type:" ++ getTypeName H (.vref a))).1,
                  (tGetBit
                    ⟨(a, nodeSignature (HNode.arr heqn) path) :: st.omap,
                      lvlAdd (lvlInit st.levels level) level
                        (typeBitsName (getTypeName H (.vref a))), st.km, st.nextBit⟩
                    ("type:" ++ getTypeName H (.vref a))).2.km,
                  (tGetBit
                    ⟨(a, nodeSignature (HNode.arr heqn) path) :: st.omap,
                      lvlAdd (lvlInit st.levels level) level
                        (typeBitsName (getTypeName H (.vref a))), st.km, st.nextBit⟩
                    ("type:" ++ getTypeName H (.vref a))).2.nextBit⟩
                ("length:" ++ natDecimal heqn.length)).1
              have h6 := (foldSteps_post hpostStep _ _ _ h).1
              exact kmLe_trans h5 (kmLe_trans h6 hT)
            rw [tGetBit_replay
              ⟨(a, nodeSignature (HNode.arr heqn) path) :: st.omap,
                lvlAdd (lvlInit st.levels level) level
                  (typeBitsName (getTypeName H (.vref a))), st.km, st.nextBit⟩
              ("type:" ++ getTypeName H (.vref a)) T nb hkm1]
            dsimp only
            have hkm2 : kmLe (tGetBit
                ⟨(a, nodeSignature (HNode.arr heqn) path) :: st.omap,
                  lvlAdd (lvlAdd (lvlInit st.levels level) level
                    (typeBitsName (getTypeName H (.vref a)))) level
                    (tGetBit
                      ⟨(a, nodeSignature (HNode.arr heqn) path) :: st.omap,
                        lvlAdd (lvlInit st.levels level) level
                          (typeBitsName (getTypeName H (.vref a))), st.km, st.nextBit⟩
                      ("type:" ++ getTypeName H (.vref a))).1,
                  (tGetBit
                    ⟨(a, nodeSignature (HNode.arr heqn) path) :: st.omap,
                      lvlAdd (lvlInit st.levels level) level
                        (typeBitsName (getTypeName H (.vref a))), st.km, st.nextBit⟩
                    ("type:" ++ getTypeName H (.vref a))).2.km,
                  (tGetBit
                    ⟨(a, nodeSignature (HNode.arr heqn) path) :: st.omap,
                      lvlAdd (lvlInit st.levels level) level
                        (typeBitsName (getTypeName H (.vref a))), st.km, st.nextBit⟩
                    ("type:" ++ getTypeName H (.vref a))).2.nextBit⟩
                ("length:" ++ natDecimal heqn.length)).2.km T :=
              kmLe_trans (foldSteps_post hpostStep _ _ _ h).1 hT
            rw [tGetBit_replay
              ⟨(a, nodeSignature (HNode.arr heqn) path) :: st.omap,
                lvlAdd (lvlAdd (lvlInit st.levels level) level
                  (typeBitsName (getTypeName H (.vref a)))) level
                  (tGetBit
                    ⟨(a, nodeSignature (HNode.arr heqn) path) :: st.omap,
                      lvlAdd (lvlInit st.levels level) level
                        (typeBitsName (getTypeName H (.vref a))), st.km, st.nextBit⟩
                    ("type:" ++ getTypeName H (.vref a))).1,
                (tGetBit
                  ⟨(a, nodeSignature (HNode.arr heqn) path) :: st.omap,
                    lvlAdd (lvlInit st.levels level) level
                      (typeBitsName (getTypeName H (.vref a))), st.km, st.nextBit⟩
                  ("type:" ++ getTypeName H (.vref a))).2.km,
                (tGetBit
                  ⟨(a, nodeSignature (HNode.arr heqn) path) :: st.omap,
                    lvlAdd (lvlInit st.levels level) level
                      (typeBitsName (getTypeName H (.vref a))), st.km, st.nextBit⟩
                  ("type:" ++ getTypeName H (.vref a))).2.nextBit⟩
              ("length:" ++ natDecimal heqn.length) T nb hkm2]
            exact foldSteps_replay hpostStep hstepRep _ _ _ _ _ h hT
    | vundef => simp only [procVal, bump] at h ⊢; cases h; rfl
    | vnull => simp only [procVal, bump] at h ⊢; cases h; rfl
    | vbool b => simp only [procVal, bump] at h ⊢; cases h; rfl
    | vnum n => simp only [procVal, bump] at h ⊢; cases h; rfl
    | vstr s => simp only [procVal, bump] at h ⊢; cases h; rfl
    | vbig n => simp only [procVal, bump] at h ⊢; cases h; rfl
    | vsym n => simp only [procVal, bump] at h ⊢; cases h; rfl
    | vfun n => simp only [procVal, bump] at h ⊢; cases h; rfl

/-! ## Shape isomorphism: related inputs drive the traversal in lockstep -/

/-- The two call-scoped visited maps correspond along `φ` with equal
recorded signatures. -/
def OmapRel (φ : List (Addr × Addr)) (m1 m2 : List (Addr × String)) : Prop :=
  (∀ a s, m1.lookup a = some s → ∃ b, (a, b) ∈ φ ∧ m2.lookup b = some s) ∧
  (∀ b s, m2.lookup b = some s → ∃ a, (a, b) ∈ φ ∧ m1.lookup a = some s)

/-- Lockstep relation between the two traversal states: identical level
hashes and registry, `φ`-related visited maps. -/
def TRel (φ : List (Addr × Addr)) (st1 st2 : TSt) : Prop :=
  OmapRel φ st1.omap st2.omap ∧ st1.levels = st2.levels ∧
    st1.km = st2.km ∧ st1.nextBit = st2.nextBit

def RelOpt (R : TSt → TSt → Prop) : Option TSt → Option TSt → Prop
  | none, none => True
  | some a, some b => R a b
  | _, _ => False

theorem shapeIso_funl {H : Heap} {φ : List (Addr × Addr)} (hiso : shapeIsoB H φ = true)
    {a b b' : Addr} (h1 : (a, b) ∈ φ) (h2 : (a, b') ∈ φ) : b = b' := by
  unfold shapeIsoB at hiso
  rw [Bool.and_eq_true, List.all_eq_true] at hiso
  have h := hiso.1 (a, b) h1
  rw [List.all_eq_true] at h
  have h' := h (a, b') h2
  rw [Bool.and_eq_true] at h'
  have := h'.1
  simp only [Bool.or_eq_true, Bool.not_eq_true', beq_eq_false_iff_ne, beq_iff_eq] at this
  rcases this with hc | hc
  · exact absurd rfl hc
  · exact hc

theorem shapeIso_funr {H : Heap} {φ : List (Addr × Addr)} (hiso : shapeIsoB H φ = true)
    {a a' b : Addr} (h1 : (a, b) ∈ φ) (h2 : (a', b) ∈ φ) : a = a' := by
  unfold shapeIsoB at hiso
  rw [Bool.and_eq_true, List.all_eq_true] at hiso
  have h := hiso.1 (a, b) h1
  rw [List.all_eq_true] at h
  have h' := h (a', b) h2
  rw [Bool.and_eq_true] at h'
  have := h'.2
  simp only [Bool.or_eq_true, Bool.not_eq_true', beq_eq_false_iff_ne, beq_iff_eq] at this
  rcases this with hc | hc
  · exact absurd rfl hc
  · exact hc

theorem shapeIso_node {H : Heap} {φ : List (Addr × Addr)} (hiso : shapeIsoB H φ = true)
    {a b : Addr} (hab : (a, b) ∈ φ) :
    ∃ n1 n2, H.get? a = some n1 ∧ H.get? b = some n2 ∧ nodeMatchB φ n1 n2 = true := by
  unfold shapeIsoB at hiso
  rw [Bool.and_eq_true, List.all_eq_true] at hiso
  have h := hiso.2
  rw [List.all_eq_true] at h
  have h' := h (a, b) hab
  match hn1 : H.get? a, hn2 : H.get? b with
  | some n1, some n2 =>
    rw [hn1, hn2] at h'
    exact ⟨n1, n2, rfl, rfl, h'⟩
  | none, _ =>
    rw [hn1] at h'
    simp at h'
  | some _, none =>
    rw [hn1, hn2] at h'
    simp at h'

theorem OmapRel_some {φ : List (Addr × Addr)} {m1 m2 : List (Addr × String)}
    {a b : Addr} {s : String} {H : Heap} (hiso : shapeIsoB H φ = true)
    (hab : (a, b) ∈ φ) (hR : OmapRel φ m1 m2) (h : m1.lookup a = some s) :
    m2.lookup b = some s := by
  rcases hR.1 a s h with ⟨b', hb', hl⟩
  rw [shapeIso_funl hiso hb' hab] at hl
  exact hl

theorem OmapRel_none {φ : List (Addr × Addr)} {m1 m2 : List (Addr × String)}
    {a b : Addr} {H : Heap} (hiso : shapeIsoB H φ = true)
    (hab : (a, b) ∈ φ) (hR : OmapRel φ m1 m2) (h : m1.lookup a = none) :
    m2.lookup b = none := by
  match hl : m2.lookup b with
  | none => rfl
  | some s =>
    rcases hR.2 b s hl with ⟨a', ha', hl'⟩
    rw [shapeIso_funr hiso ha' hab] at hl'
    rw [h] at hl'
    exact Option.noConfusion hl'

theorem OmapRel_insert {φ : List (Addr × Addr)} {m1 m2 : List (Addr × String)}
    {a b : Addr} {H : Heap} (hiso : shapeIsoB H φ = true) (hab : (a, b) ∈ φ)
    (h1 : m1.lookup a = none) (h2 : m2.lookup b = none) (hR : OmapRel φ m1 m2)
    (sig : String) :
    OmapRel φ ((a, sig) :: m1) ((b, sig) :: m2) := by
  constructor
  · intro a' s h
    by_cases ha' : a' = a
    · subst ha'
      simp only [List.lookup, beq_self_eq_true, Option.some.injEq] at h
      refine ⟨b, hab, ?_⟩
      simp [List.lookup, h]
    · simp only [List.lookup, beq_eq_false_iff_ne.mpr ha'] at h
      rcases hR.1 a' s h with ⟨b', hb', hl⟩
      have hbb : b' ≠ b := by
        intro he
        exact ha' (shapeIso_funr hiso (he ▸ hb') hab)
      refine ⟨b', hb', ?_⟩
      simp only [List.lookup, beq_eq_false_iff_ne.mpr hbb]
      exact hl
  · intro b' s h
    by_cases hb' : b' = b
    · subst hb'
      simp only [List.lookup, beq_self_eq_true, Option.some.injEq] at h
      refine ⟨a, hab, ?_⟩
      simp [List.lookup, h]
    · simp only [List.lookup, beq_eq_false_iff_ne.mpr hb'] at h
      rcases hR.2 b' s h with ⟨a', ha', hl⟩
      have haa : a' ≠ a := by
        intro he
        exact hb' (shapeIso_funl hiso (he ▸ ha') hab)
      refine ⟨a', ha', ?_⟩
      simp only [List.lookup, beq_eq_false_iff_ne.mpr haa]
      exact hl

theorem tGetBit_km_only (st1 st2 : TSt) (k : String)
    (hkm : st1.km = st2.km) (hnb : st1.nextBit = st2.nextBit) :
    (tGetBit st1 k).1 = (tGetBit st2 k).1 ∧
    (tGetBit st1 k).2.km = (tGetBit st2 k).2.km ∧
    (tGetBit st1 k).2.nextBit = (tGetBit st2 k).2.nextBit := by
  unfold tGetBit
  rw [hkm, hnb]
  match st2.km.lookup k with
  | some b => exact ⟨rfl, hkm, hnb⟩
  | none => exact ⟨rfl, rfl, rfl⟩

theorem nodeMatch_signature {φ : List (Addr × Addr)} {n1 n2 : HNode} (path : List String)
    (h : nodeMatchB φ n1 n2 = true) : nodeSignature n1 path = nodeSignature n2 path := by
  cases n1 with
  | obj f1 =>
    cases n2 with
    | obj f2 =>
      unfold nodeMatchB at h
      rw [Bool.and_eq_true] at h
      have hk : sortStrs (f1.map Prod.fst) = sortStrs (f2.map Prod.fst) := by
        have := h.1
        simpa using this
      simp only [nodeSignature, hk]
    | arr l2 => simp [nodeMatchB] at h
  | arr l1 =>
    cases n2 with
    | obj f2 => simp [nodeMatchB] at h
    | arr l2 =>
      unfold nodeMatchB at h
      rw [Bool.and_eq_true] at h
      have hl : l1.length = l2.length := by
        have := h.1
        simpa using this
      simp only [nodeSignature, hl]

theorem foldSteps_rel_same {α : Type} {R : TSt → TSt → Prop}
    {step1 step2 : TSt → α → Option TSt} :
    ∀ (xs : List α), (∀ t1 t2 x, x ∈ xs → R t1 t2 → RelOpt R (step1 t1 x) (step2 t2 x)) →
    ∀ st1 st2, R st1 st2 → RelOpt R (foldSteps step1 xs st1) (foldSteps step2 xs st2) := by
  intro xs
  induction xs with
  | nil =>
    intro _ st1 st2 hR
    exact hR
  | cons x xs ih =>
    intro hstep st1 st2 hR
    have h1 := hstep st1 st2 x (List.mem_cons_self _ _) hR
    simp only [foldSteps]
    match e1 : step1 st1 x, e2 : step2 st2 x with
    | none, none => trivial
    | some t1, some t2 =>
      rw [e1, e2] at h1
      exact ih (fun u1 u2 y hy hu => hstep u1 u2 y (List.mem_cons_of_mem _ hy) hu) t1 t2 h1
    | none, some _ => rw [e1, e2] at h1; exact absurd h1 (by simp [RelOpt])
    | some _, none => rw [e1, e2] at h1; exact absurd h1 (by simp [RelOpt])

theorem foldSteps_rel_zip {R : TSt → TSt → Prop}
    {step1 step2 : TSt → Nat × JsVal → Option TSt} :
    ∀ (l1 l2 : List JsVal) (n : Nat), l1.length = l2.length →
    (∀ t1 t2 i x1 x2, (x1, x2) ∈ l1.zip l2 → R t1 t2 →
      RelOpt R (step1 t1 (i, x1)) (step2 t2 (i, x2))) →
    ∀ st1 st2, R st1 st2 →
    RelOpt R (foldSteps step1 (List.enumFrom n l1) st1)
      (foldSteps step2 (List.enumFrom n l2) st2) := by
  intro l1
  induction l1 with
  | nil =>
    intro l2 n hlen hstep st1 st2 hR
    cases l2 with
    | nil => exact hR
    | cons y ys => simp at hlen
  | cons x xs ih =>
    intro l2 n hlen hstep st1 st2 hR
    cases l2 with
    | nil => simp at hlen
    | cons y ys =>
      simp only [List.enumFrom, foldSteps]
      have h1 := hstep st1 st2 n x y (by simp [List.zip]) hR
      match e1 : step1 st1 (n, x), e2 : step2 st2 (n, y) with
      | none, none => trivial
      | some t1, some t2 =>
        rw [e1, e2] at h1
        have hlen' : xs.length = ys.length := by simpa using hlen
        exact ih ys (n + 1) hlen'
          (fun u1 u2 i z1 z2 hz hu => hstep u1 u2 i z1 z2 (by simp [List.zip] at hz ⊢; right; exact hz) hu)
          t1 t2 h1
      | none, some _ => rw [e1, e2] at h1; exact absurd h1 (by simp [RelOpt])
      | some _, none => rw [e1, e2] at h1; exact absurd h1 (by simp [RelOpt])

theorem nodeMatch_type {H : Heap} {φ : List (Addr × Addr)} {a b : Addr} {n1 n2 : HNode}
    (hn1 : H.get? a = some n1) (hn2 : H.get? b = some n2)
    (hnm : nodeMatchB φ n1 n2 = true) :
    getTypeName H (.vref a) = getTypeName H (.vref b) := by
  cases n1 with
  | obj f1 =>
    cases n2 with
    | obj f2 =>
      simp only [getTypeName]
      rw [hn1, hn2]
    | arr l2 => simp [nodeMatchB] at hnm
  | arr l1 =>
    cases n2 with
    | obj f2 => simp [nodeMatchB] at hnm
    | arr l2 =>
      simp only [getTypeName]
      rw [hn1, hn2]

/-- Shape-isomorphic values drive `processStructure` in lockstep: from
related states, both runs succeed or fail together, and on success the level
hashes, the registry and the allocator agree exactly, while the visited maps
correspond along `φ`. -/
theorem procVal_iso (H : Heap) (φ : List (Addr × Addr)) (hiso : shapeIsoB H φ = true) :
    ∀ fuel v1 v2 level path st1 st2,
      valMatchB φ v1 v2 = true → TRel φ st1 st2 →
      RelOpt (TRel φ) (procVal H fuel v1 level path st1)
        (procVal H fuel v2 level path st2) := by
  intro fuel
  induction fuel with
  | zero =>
    intro v1 v2 level path st1 st2 hm hR
    exact trivial
  | succ fuel ih =>
    intro v1 v2 level path st1 st2 hm hR
    obtain ⟨hOm, hLv, hKm, hNb⟩ := hR
    cases v1 <;> cases v2 <;>
      first
      | (simp only [valMatchB] at hm; exact Bool.noConfusion hm)
      | skip
    all_goals try exact ⟨hOm, by simp only [bump]; rw [hLv]; try rfl, hKm, hNb⟩
    rename_i a b
    have hab : (a, b) ∈ φ := by
      have := hm
      simp only [List.contains] at this
      exact List.mem_of_elem_eq_true this
    rcases shapeIso_node hiso hab with ⟨n1, n2, hn1, hn2, hnm⟩
    have hty := nodeMatch_type hn1 hn2 hnm
    simp only [procVal, bump, tGetBit_omap, tGetBit_levels]
    rw [hn1, hn2, hLv, hKm, hNb, ← hty]
    dsimp only
    rcases hv1 : List.lookup a st1.omap with _ | c1
    · have hv2 := OmapRel_none hiso hab hOm hv1
      rw [hv2]
      dsimp only
      have hsig := nodeMatch_signature path hnm
      cases n1 with
      | obj f1 =>
        cases n2 with
        | arr l2 => simp [nodeMatchB] at hnm
        | obj f2 =>
          unfold nodeMatchB at hnm
          rw [Bool.and_eq_true] at hnm
          have hkeys : sortStrs (f1.map Prod.fst) = sortStrs (f2.map Prod.fst) := by
            have := hnm.1
            simpa using this
          have hvals : ∀ k ∈ sortStrs (f1.map Prod.fst),
              valMatchB φ (fieldVal f1 k) (fieldVal f2 k) = true :=
            List.all_eq_true.mp hnm.2
          dsimp only
          rw [hsig, hkeys]
          have hb3 := tGetBit_km_only
            ⟨(a, nodeSignature (HNode.obj f2) path) :: st1.omap,
              lvlAdd (lvlInit st2.levels level) level
                (typeBitsName (getTypeName H (.vref a))), st2.km, st2.nextBit⟩
            ⟨(b, nodeSignature (HNode.obj f2) path) :: st2.omap,
              lvlAdd (lvlInit st2.levels level) level
                (typeBitsName (getTypeName H (.vref a))), st2.km, st2.nextBit⟩
            ("type:" ++ getTypeName H (.vref a)) rfl rfl
          apply foldSteps_rel_same
          · intro t1 t2 k hk hRt
            obtain ⟨uOm, uLv, uKm, uNb⟩ := hRt
            have hb := tGetBit_km_only t1 t2 k uKm uNb
            have hvm : valMatchB φ (fieldVal f1 k) (fieldVal f2 k) = true :=
              hvals k (hkeys ▸ hk)
            exact ih _ _ _ _ _ _ hvm ⟨uOm, by rw [uLv, hb.1], hb.2.1, hb.2.2⟩
          · exact ⟨OmapRel_insert hiso hab hv1 hv2 hOm _,
              by rw [hb3.1], hb3.2.1, hb3.2.2⟩
      | arr l1 =>
        cases n2 with
        | obj f2 => simp [nodeMatchB] at hnm
        | arr l2 =>
          unfold nodeMatchB at hnm
          rw [Bool.and_eq_true] at hnm
          have hlen : l1.length = l2.length := by
            have := hnm.1
            simpa using this
          have hvals : ∀ p ∈ l1.zip l2, valMatchB φ p.1 p.2 = true :=
            List.all_eq_true.mp hnm.2
          dsimp only
          rw [hsig, hlen]
          have hb3 := tGetBit_km_only
            ⟨(a, nodeSignature (HNode.arr l2) path) :: st1.omap,
              lvlAdd (lvlInit st2.levels level) level
                (typeBitsName (getTypeName H (.vref a))), st2.km, st2.nextBit⟩
            ⟨(b, nodeSignature (HNode.arr l2) path) :: st2.omap,
              lvlAdd (lvlInit st2.levels level) level
                (typeBitsName (getTypeName H (.vref a))), st2.km, st2.nextBit⟩
            ("type:" ++ getTypeName H (.vref a)) rfl rfl
          have hb4 := tGetBit_km_only
            ⟨(a, nodeSignature (HNode.arr l2) path) :: st1.omap,
              lvlAdd (lvlAdd (lvlInit st2.levels level) level
                (typeBitsName (getTypeName H (.vref a)))) level
                (tGetBit
                  ⟨(a, nodeSignature (HNode.arr l2) path) :: st1.omap,
                    lvlAdd (lvlInit st2.levels level) level
                      (typeBitsName (getTypeName H (.vref a))), st2.km, st2.nextBit⟩
                  ("type:" ++ getTypeName H (.vref a))).1,
              (tGetBit
                ⟨(a, nodeSignature (HNode.arr l2) path) :: st1.omap,
                  lvlAdd (lvlInit st2.levels level) level
                    (typeBitsName (getTypeName H (.vref a))), st2.km, st2.nextBit⟩
                ("type:" ++ getTypeName H (.vref a))).2.km,
              (tGetBit
                ⟨(a, nodeSignature (HNode.arr l2) path) :: st1.omap,
                  lvlAdd (lvlInit st2.levels level) level
                    (typeBitsName (getTypeName H (.vref a))), st2.km, st2.nextBit⟩
                ("type:" ++ getTypeName H (.vref a))).2.nextBit⟩
            ⟨(b, nodeSignature (HNode.arr l2) path) :: st2.omap,
              lvlAdd (lvlAdd (lvlInit st2.levels level) level
                (typeBitsName (getTypeName H (.vref a)))) level
                (tGetBit
                  ⟨(b, nodeSignature (HNode.arr l2) path) :: st2.omap,
                    lvlAdd (lvlInit st2.levels level) level
                      (typeBitsName (getTypeName H (.vref a))), st2.km, st2.nextBit⟩
                  ("type:" ++ getTypeName H (.vref a))).1,
              (tGetBit
                ⟨(b, nodeSignature (HNode.arr l2) path) :: st2.omap,
                  lvlAdd (lvlInit st2.levels level) level
                    (typeBitsName (getTypeName H (.vref a))), st2.km, st2.nextBit⟩
                ("type:" ++ getTypeName H (.vref a))).2.km,
              (tGetBit
                ⟨(b, nodeSignature (HNode.arr l2) path) :: st2.omap,
                  lvlAdd (lvlInit st2.levels level) level
                    (typeBitsName (getTypeName H (.vref a))), st2.km, st2.nextBit⟩
                ("type:" ++ getTypeName H (.vref a))).2.nextBit⟩
            ("length:" ++ natDecimal l2.length) hb3.2.1 hb3.2.2
          refine foldSteps_rel_zip l1 l2 0 hlen ?_ _ _ ?_
          · intro t1 t2 i x1 x2 hx hRt
            obtain ⟨uOm, uLv, uKm, uNb⟩ := hRt
            have hb := tGetBit_km_only t1 t2 ("[" ++ natDecimal i ++ "]") uKm uNb
            have hvm : valMatchB φ x1 x2 = true := hvals (x1, x2) hx
            exact ih _ _ _ _ _ _ hvm ⟨uOm, by rw [uLv, hb.1], hb.2.1, hb.2.2⟩
          · exact ⟨OmapRel_insert hiso hab hv1 hv2 hOm _,
              by rw [hb4.1, hb3.1], hb4.2.1, hb4.2.2⟩
    · have hv2 := OmapRel_some hiso hab hOm hv1
      rw [hv2]
      dsimp only
      have hbit := tGetBit_km_only
        ⟨st1.omap, lvlAdd (lvlInit st2.levels level) level
          (typeBitsName (getTypeName H (.vref a))), st2.km, st2.nextBit⟩
        ⟨st2.omap, lvlAdd (lvlInit st2.levels level) level
          (typeBitsName (getTypeName H (.vref a))), st2.km, st2.nextBit⟩
        ("circular:" ++ c1) rfl rfl
      exact ⟨hOm, by rw [hbit.1], hbit.2.1, hbit.2.2⟩

/-! ## Bridge: explicit descriptions of `genObj`'s result -/

def sigCount (g : GState) (sig : String) : Nat := (g.counter.lookup sig).getD 0

def l0Of (e : Bool) (g : GState) (sig : String) : Int :=
  if e then (sigCount g sig : Int)
  else (Nat.lor (Nat.lor (charSum sig * 2 ^ 32) (sigCount g sig)) g.seed : Nat)

def idOfRun (e : Bool) (g : GState) (st : TSt) : String :=
  joinSep "-" ((lvlSet st.levels 0 (l0Of e g (sigOf st))).map fmtSeg)

/-- The engine state after a default-mode (cache-missing) generation. -/
def gAfterD (H : Heap) (a : Addr) (g : GState) (st : TSt) : GState :=
  { g with
    km := st.km
    nextBit := st.nextBit
    sigCache := setA g.sigCache a (sigOf st)
    idCache := setA g.idCache a (idOfRun false g st)
    infoCache := eraseA g.infoCache a }

/-- The engine state after a collision-mode generation. -/
def gAfterE (H : Heap) (a : Addr) (g : GState) (st : TSt) : GState :=
  { g with
    km := st.km
    nextBit := st.nextBit
    sigCache := setA g.sigCache a (sigOf st)
    counter := setA g.counter (sigOf st) (sigCount g (sigOf st) + 1)
    infoCache := eraseA g.infoCache a }

theorem genObj_false (H : Heap) (a : Addr) (g : GState) (st : TSt)
    (hrun : runTraversal H (.vref a) g = some st) :
    genObj H a false g = some (idOfRun false g st, gAfterD H a g st) := by
  unfold genObj gAfterD idOfRun l0Of sigCount
  rw [hrun]
  rfl

theorem genObj_true (H : Heap) (a : Addr) (g : GState) (st : TSt)
    (hrun : runTraversal H (.vref a) g = some st) :
    genObj H a true g = some (idOfRun true g st, gAfterE H a g st) := by
  unfold genObj gAfterE idOfRun l0Of sigCount
  rw [hrun]
  rfl

theorem runTraversal_some (H : Heap) (v : JsVal) (g : GState)
    (hH : heapWfB H = true) (hv : valWfB H v = true) :
    ∃ st, runTraversal H v g = some st :=
  procVal_some H hH (fuelFor H) v 0 [] ⟨[], [], g.km, g.nextBit⟩ hv
    ⟨List.nodup_nil, by intro p hp; simp at hp⟩ (by simp [fuelFor])

theorem runTraversal_sorted {H : Heap} {v : JsVal} {g : GState} {st : TSt}
    (h : runTraversal H v g = some st) : lvlSorted st.levels :=
  (procVal_post H _ _ _ _ _ _ h).2.2.2.2 List.Pairwise.nil

theorem runTraversal_kmLe {H : Heap} {v : JsVal} {g : GState} {st : TSt}
    (h : runTraversal H v g = some st) : kmLe g.km st.km :=
  (procVal_post H _ _ _ _ _ _ h).1

theorem runTraversal_replay {H : Heap} {v : JsVal} {g g' : GState} {st : TSt}
    (h : runTraversal H v g = some st) (hk : kmLe st.km g'.km) :
    runTraversal H v g' = some ⟨st.omap, st.levels, g'.km, g'.nextBit⟩ := by
  have := procVal_replay H (fuelFor H) v 0 [] ⟨[], [], g.km, g.nextBit⟩ st g'.km g'.nextBit h hk
  exact this

theorem runTraversal_iso {H : Heap} {φ : List (Addr × Addr)} {v1 v2 : JsVal} {g : GState}
    (hiso : shapeIsoB H φ = true) (hm : valMatchB φ v1 v2 = true) :
    RelOpt (TRel φ) (runTraversal H v1 g) (runTraversal H v2 g) :=
  procVal_iso H φ hiso (fuelFor H) v1 v2 0 [] _ _ hm
    ⟨⟨fun a s h => by simp [List.lookup] at h, fun b s h => by simp [List.lookup] at h⟩,
      rfl, rfl, rfl⟩

/-! ## Structure of the final ID string -/

theorem intDecimal_ofNat (m : Nat) : intDecimal (m : Int) = natDecimal m := by
  unfold intDecimal
  rw [if_neg (by omega)]
  congr 1

theorem strAppend_assoc (a b c : String) : a ++ b ++ c = a ++ (b ++ c) := by
  apply String.ext
  simp [String.data_append, List.append_assoc]

theorem joinSep_cons (sep s : String) (rest : List String) :
    joinSep sep (s :: rest) = s ++ (if rest = [] then "" else sep ++ joinSep sep rest) := by
  cases rest with
  | nil => simp [joinSep]
  | cons t ts => simp [joinSep, strAppend_assoc]

/-- The depth-`≥1` part of the id, `""` for a one-segment id. -/
def tailOf (L : List (Nat × Int)) : String :=
  if L.filter (fun p => 0 < p.1) = [] then ""
  else "-" ++ joinSep "-" ((L.filter (fun p => 0 < p.1)).map fmtSeg)

theorem lvlSet_zero_decompose (L : List (Nat × Int)) (hs : lvlSorted L) (x : Int) :
    ∃ pos, lvlSet L 0 x = (0, x) :: pos ∧ L.filter (fun p => 0 < p.1) = pos := by
  cases L with
  | nil => exact ⟨[], rfl, rfl⟩
  | cons p rest =>
    rcases Nat.eq_zero_or_pos p.1 with hp | hp
    · refine ⟨rest, ?_, ?_⟩
      · show lvlSet (p :: rest) 0 x = (0, x) :: rest
        unfold lvlSet
        rw [if_neg (by omega), if_pos hp.symm]
      · have hall : ∀ q ∈ rest, 0 < q.1 := by
          intro q hq
          have := (List.pairwise_cons.mp hs).1 q hq
          omega
        simp only [List.filter_cons]
        rw [if_neg (by simpa using (by omega : ¬0 < p.1))]
        exact List.filter_eq_self.mpr (fun q hq => by simpa using hall q hq)
    · refine ⟨p :: rest, ?_, ?_⟩
      · show lvlSet (p :: rest) 0 x = (0, x) :: p :: rest
        unfold lvlSet
        rw [if_pos hp]
      · have hall : ∀ q ∈ rest, 0 < q.1 := by
          intro q hq
          have := (List.pairwise_cons.mp hs).1 q hq
          omega
        simp only [List.filter_cons]
        rw [if_pos (by simpa using hp)]
        congr 1
        exact List.filter_eq_self.mpr (fun q hq => by simpa using hall q hq)

/-- Every generated object id splits as an `L0` segment followed by the
signature tail. -/
theorem idOfRun_split (e : Bool) (g : GState) (st : TSt) (hs : lvlSorted st.levels) :
    idOfRun e g st = "L0:" ++ intDecimal (l0Of e g (sigOf st)) ++ tailOf st.levels ∧
    sigOf st = joinSep "-" ((st.levels.filter (fun p => 0 < p.1)).map fmtSeg) := by
  rcases lvlSet_zero_decompose st.levels hs (l0Of e g (sigOf st)) with ⟨pos, h1, h2⟩
  constructor
  · unfold idOfRun
    rw [h1]
    simp only [List.map_cons]
    rw [joinSep_cons]
    unfold tailOf
    rw [h2]
    have hL0 : fmtSeg (0, l0Of e g (sigOf st)) =
        "L0:" ++ intDecimal (l0Of e g (sigOf st)) := rfl
    rw [hL0]
    cases pos with
    | nil => simp
    | cons q qs =>
      rw [if_neg (by simp), if_neg (by simp)]
  · rfl

/-! ## Miscellaneous helpers for the claims -/

theorem typeBitsName_le (s : String) : typeBitsName s ≤ 256 := by
  unfold typeBitsName
  split_ifs <;> omega

theorem L0_ne_empty (x : String) : ("L0:" ++ x) ≠ "" := by
  intro h
  have h2 : ("L0:" ++ x).data = [] := by rw [h]
  rw [String.data_append] at h2
  rw [List.append_eq_nil] at h2
  exact absurd h2.1 (by decide)

theorem primId_ne_empty (v : JsVal) : primId v ≠ "" := by
  unfold primId
  rw [strAppend_assoc, strAppend_assoc]
  exact L0_ne_empty _

/-- Cancel an identical literal prefix and an identical suffix. -/
theorem str_cancel {p x t y : String} (h : p ++ x ++ t = p ++ y ++ t) : x = y := by
  have hd := congrArg String.data h
  simp only [String.data_append] at hd
  rw [List.append_assoc, List.append_assoc] at hd
  exact String.ext (List.append_cancel_right (List.append_cancel_left hd))

theorem idSeq_inj {t : String} {m n : Nat}
    (h : "L0:" ++ natDecimal m ++ t = "L0:" ++ natDecimal n ++ t) : m = n :=
  natDecimal_inj (str_cancel h)

/-- The default-mode `L0` value determines the seed (signature and counter
fixed): distinct sub-`2^32` seeds give distinct `L0` values. -/
theorem lor_inj_low {c s1 s2 : Nat} (h1 : s1 < 2 ^ 32) (h2 : s2 < 2 ^ 32)
    (h : Nat.lor (c * 2 ^ 32) s1 = Nat.lor (c * 2 ^ 32) s2) : s1 = s2 := by
  have hsh : c * 2 ^ 32 = c <<< 32 := (Nat.shiftLeft_eq c 32).symm
  apply Nat.eq_of_testBit_eq
  intro i
  by_cases hi : i < 32
  · have hc : (c * 2 ^ 32).testBit i = false := by
      rw [hsh, Nat.testBit_shiftLeft]
      simp [Nat.not_le.mpr hi]
    have h' : (c * 2 ^ 32 ||| s1) = (c * 2 ^ 32 ||| s2) := h
    have := congrArg (fun n => n.testBit i) h'
    simp only [Nat.testBit_lor, hc, Bool.false_or] at this
    exact this
  · have e1 : s1.testBit i = false :=
      Nat.testBit_lt_two_pow (lt_of_lt_of_le h1 (Nat.pow_le_pow_right (by omega) (by omega)))
    have e2 : s2.testBit i = false :=
      Nat.testBit_lt_two_pow (lt_of_lt_of_le h2 (Nat.pow_le_pow_right (by omega) (by omega)))
    rw [e1, e2]

theorem idOfRun_congr {g g' : GState} (e : Bool) (st : TSt)
    (hc : g'.counter = g.counter) (hs : g'.seed = g.seed) :
    idOfRun e g' st = idOfRun e g st := by
  unfold idOfRun l0Of sigCount
  rw [hc, hs]

theorem idOfRun_levels {g : GState} {e : Bool} {st st' : TSt}
    (h : st.levels = st'.levels) : idOfRun e g st = idOfRun e g st' := by
  unfold idOfRun sigOf
  rw [h]

theorem sigOf_congr {st st' : TSt} (h : st.levels = st'.levels) : sigOf st = sigOf st' := by
  unfold sigOf
  rw [h]

theorem genObj_false_inv {H : Heap} {a : Addr} {g : GState} {id : String} {g' : GState}
    (h : genObj H a false g = some (id, g')) :
    ∃ st, runTraversal H (.vref a) g = some st ∧
      id = idOfRun false g st ∧ g' = gAfterD H a g st := by
  rcases hrun : runTraversal H (.vref a) g with _ | st
  · unfold genObj at h
    rw [hrun] at h
    exact absurd h (by simp)
  · rw [genObj_false H a g st hrun] at h
    obtain ⟨h1, h2⟩ := Prod.mk.injEq .. ▸ Option.some.inj h
    exact ⟨st, rfl, h1.symm, h2.symm⟩

theorem genObj_true_inv {H : Heap} {a : Addr} {g : GState} {id : String} {g' : GState}
    (h : genObj H a true g = some (id, g')) :
    ∃ st, runTraversal H (.vref a) g = some st ∧
      id = idOfRun true g st ∧ g' = gAfterE H a g st := by
  rcases hrun : runTraversal H (.vref a) g with _ | st
  · unfold genObj at h
    rw [hrun] at h
    exact absurd h (by simp)
  · rw [genObj_true H a g st hrun] at h
    obtain ⟨h1, h2⟩ := Prod.mk.injEq .. ▸ Option.some.inj h
    exact ⟨st, rfl, h1.symm, h2.symm⟩

/-! ## Helper facts about the public operations -/

theorem getStructureInfo_prim {H : Heap} {v : JsVal} {cfg : Option Bool} {g : GState}
    (h : isRefVal v = false) :
    getStructureInfo H v cfg g =
      some (⟨primId v, calculateIdLevels (primId v), 0⟩, g) := by
  cases v <;> first | rfl | exact absurd h (by simp [isRefVal])

theorem generateStructureId_prim {H : Heap} {v : JsVal} {cfg : Option Bool} {g : GState}
    (h : isRefVal v = false) :
    generateStructureId H v cfg g = some (primId v, g) := by
  cases v <;> first | rfl | exact absurd h (by simp [isRefVal])

theorem gen_default_counter {H : Heap} {a : Addr} {g : GState} {id : String} {g' : GState}
    (h : generateStructureId H (.vref a) (some false) g = some (id, g')) :
    g'.counter = g.counter ∧ g'.seed = g.seed ∧ g'.globalCfg = g.globalCfg := by
  unfold generateStructureId at h
  dsimp only at h
  by_cases hc : (g.idCache.lookup a).isSome
  · rw [if_pos ⟨rfl, hc⟩] at h
    obtain ⟨h1, h2⟩ := Prod.mk.injEq .. ▸ Option.some.inj h
    rw [← h2]
    exact ⟨rfl, rfl, rfl⟩
  · rw [if_neg (fun hand => hc hand.2)] at h
    obtain ⟨st, _, _, hg⟩ := genObj_false_inv h
    rw [hg]
    exact ⟨rfl, rfl, rfl⟩

/-! ## The claims -/

/-- C10: for every non-object input (numbers, strings, booleans, bigints,
symbols, undefined) and for null, `generateStructureId` returns exactly the
two-segment string `L0:b-L1:b` where `b` is the fixed `TYPE_BITS` entry for
`typeof v` (so null receives the object bit `128` and the unrecognized
`typeof` result `"function"` yields `0`), identically in both collision modes
and without reading or advancing any counter, registry or cache (the state
comes back unchanged); `getStructureInfo` on such a `v` returns that id with
`levels = 2` and `collisionCount = 0`. -/
theorem claim_C10 (H : Heap) (v : JsVal) (cfg : Option Bool) (g : GState)
    (h : isRefVal v = false) :
    generateStructureId H v cfg g = some (primId v, g) ∧
    getStructureInfo H v cfg g = some (⟨primId v, 2, 0⟩, g) ∧
    primId v = "L0:" ++ intDecimal (typeBitsName (typeofStr v)) ++ "-L1:" ++
      intDecimal (typeBitsName (typeofStr v)) ∧
    typeBitsName (typeofStr JsVal.vnull) = 128 ∧
    typeBitsName (typeofStr (JsVal.vfun 0)) = 0 := by
  cases v
  case vref a => exact absurd h (by simp [isRefVal])
  case vsym n =>
    have hs : primId (JsVal.vsym n) = "L0:64-L1:64" := by
      unfold primId
      rw [show typeofStr (JsVal.vsym n) = "symbol" from rfl]
      rfl
    have base : getStructureInfo H (JsVal.vsym n) cfg g =
        some (⟨primId (JsVal.vsym n), calculateIdLevels (primId (JsVal.vsym n)), 0⟩, g) := rfl
    rw [hs] at base
    refine ⟨rfl, ?_, rfl, rfl, rfl⟩
    rw [hs]
    exact base
  all_goals exact ⟨rfl, rfl, rfl, rfl, rfl⟩

theorem claim_C10_witness :
    isRefVal (JsVal.vnum 3) = false ∧
    generateStructureId [] (JsVal.vnum 3) none initialGState =
      some (primId (JsVal.vnum 3), initialGState) :=
  ⟨rfl, (claim_C10 [] (JsVal.vnum 3) none initialGState rfl).1⟩

/-- C9: within one epoch (states whose registry bits all lie in
`[512, nextBit)` with `512 ≤ nextBit`, as established at module load and
preserved by every call), the first `getBit` observation of a key allocates
the current watermark — strictly greater than every previously allocated
bit — and doubles the watermark; every later call for that key returns the
stored value with the state unchanged; and every bit ever stored in the
registry is strictly above every native type-tag bit (`TYPE_BITS ≤ 256 <
512`), so application keys never collide with type-tag bits. -/
theorem claim_C9 (st : TSt) (k : String)
    (hres : 512 ≤ st.nextBit)
    (hlow : ∀ p ∈ st.km, 512 ≤ p.2)
    (hhigh : ∀ p ∈ st.km, p.2 < st.nextBit) :
    (st.km.lookup k = none →
      (tGetBit st k).1 = st.nextBit ∧
      (∀ p ∈ st.km, p.2 < (tGetBit st k).1) ∧
      (tGetBit st k).2.nextBit = st.nextBit * 2) ∧
    ((tGetBit st k).2.km.lookup k = some (tGetBit st k).1 ∧
      tGetBit (tGetBit st k).2 k = ((tGetBit st k).1, (tGetBit st k).2)) ∧
    (∀ p ∈ (tGetBit st k).2.km,
      (∀ s, typeBitsName s < p.2) ∧ 512 ≤ p.2 ∧ p.2 < (tGetBit st k).2.nextBit) ∧
    512 ≤ (tGetBit st k).2.nextBit := by
  rcases hk : st.km.lookup k with _ | b
  · have ht : tGetBit st k =
        (st.nextBit, { st with km := st.km ++ [(k, st.nextBit)], nextBit := st.nextBit * 2 }) := by
      unfold tGetBit
      rw [hk]
    rw [ht]
    dsimp only
    have hlk : (st.km ++ [(k, st.nextBit)]).lookup k = some st.nextBit := by
      rw [lookup_append_none _ hk]
      simp [List.lookup]
    refine ⟨fun _ => ⟨rfl, hhigh, rfl⟩, ⟨hlk, ?_⟩, ?_, by omega⟩
    · unfold tGetBit
      rw [show ({ st with km := st.km ++ [(k, st.nextBit)], nextBit := st.nextBit * 2 } : TSt).km =
        st.km ++ [(k, st.nextBit)] from rfl, hlk]
    · intro p hp
      rcases List.mem_append.mp hp with hp | hp
      · refine ⟨fun s => lt_of_le_of_lt (typeBitsName_le s) ?_, hlow p hp, ?_⟩
        · have := hlow p hp
          omega
        · have := hhigh p hp
          omega
      · have hpk : p = (k, st.nextBit) := by simpa using hp
        subst hpk
        exact ⟨fun s => lt_of_le_of_lt (typeBitsName_le s) (by omega), hres, by omega⟩
  · have ht : tGetBit st k = (b, st) := by
      unfold tGetBit
      rw [hk]
    rw [ht]
    dsimp only
    refine ⟨fun hn => Option.noConfusion hn, ⟨hk, ht⟩, ?_, hres⟩
    intro p hp
    refine ⟨fun s => lt_of_le_of_lt (typeBitsName_le s) ?_, hlow p hp, hhigh p hp⟩
    have := hlow p hp
    omega

theorem claim_C9_witness :
    (tGetBit ⟨[], [], [("x", 512)], 1024⟩ "y").2.nextBit = 1024 * 2 :=
  ((claim_C9 ⟨[], [], [("x", 512)], 1024⟩ "y" (by decide)
      (by decide)
      (by decide)).1 (by decide)).2.2

/-- C5 (refuted — code bug): the spec promises that the `id` field of every
`getStructureInfo` result is a well-formed structure ID (`L{depth}:{decimal}`
segments joined by `-`).  But after an object has only ever been generated
with collision mode enabled, a default-mode info query interpolates the
missing final-ID cache entry into the literal string `"undefined"`, which is
not of that form (it contains no `':'` at all): here the empty object is
generated in collision mode (id `"L0:0"`), then queried in default mode. -/
theorem claim_C5 :
    (generateStructureId [HNode.obj []] (.vref 0) (some true) initialGState).map
      Prod.fst = some "L0:0" ∧
    ((generateStructureId [HNode.obj []] (.vref 0) (some true) initialGState).bind
      (fun p => getStructureInfo [HNode.obj []] (.vref 0) (some false) p.2)).map
      Prod.fst = some ⟨"undefined", 1, 1⟩ ∧
    "undefined".data.all (fun c => c ≠ ':') = true :=
  ⟨rfl, rfl, by decide⟩

theorem claim_C4_prim (H : Heap) (v : JsVal) (cfg : Option Bool) (g : GState)
    (hp : isRefVal v = false) :
    (∀ i g1, getStructureInfo H v cfg g = some (i, g1) → g1.counter = g.counter) ∧
    (∀ i g1, getStructureInfo H v cfg g = some (i, g1) →
      getStructureInfo H v cfg g1 = some (i, g1)) ∧
    (∀ id g1, generateStructureId H v cfg g = some (id, g1) →
      ∀ s, sigCount g s ≤ sigCount g1 s) := by
  refine ⟨?_, ?_, ?_⟩
  · intro i g1 h
    rw [getStructureInfo_prim hp] at h
    obtain ⟨h1, h2⟩ := Prod.mk.injEq .. ▸ Option.some.inj h
    rw [← h2]
  · intro i g1 h
    rw [getStructureInfo_prim hp] at h
    obtain ⟨h1, h2⟩ := Prod.mk.injEq .. ▸ Option.some.inj h
    rw [← h2, getStructureInfo_prim hp, h1]
  · intro id g1 h
    rw [generateStructureId_prim hp] at h
    obtain ⟨h1, h2⟩ := Prod.mk.injEq .. ▸ Option.some.inj h
    rw [← h2]
    exact fun s => le_refl _

/-- C4 (amended): the true fragment of the claim — `getStructureInfo` never
mutates any collision counter; a second info call on the same input with no
intervening generation returns the identical result (and state); and
`generateStructureId` never decreases any counter.  The original claim's "no
operation ever decrements a collision counter" is refuted by
`registerStructure`, which overwrites a counter with an arbitrary value
(`claim_C4_cex`). -/
theorem claim_C4 (H : Heap) (v : JsVal) (cfg : Option Bool) (g : GState) :
    (∀ i g1, getStructureInfo H v cfg g = some (i, g1) → g1.counter = g.counter) ∧
    (∀ i g1, getStructureInfo H v cfg g = some (i, g1) →
      getStructureInfo H v cfg g1 = some (i, g1)) ∧
    (∀ id g1, generateStructureId H v cfg g = some (id, g1) →
      ∀ s, sigCount g s ≤ sigCount g1 s) := by
  cases v
  case vref a =>
    refine ⟨?_, ?_, ?_⟩
    · intro i g1 h
      unfold getStructureInfo at h
      dsimp only at h
      rcases hic : g.infoCache.lookup a with _ | info
      · rw [hic] at h
        dsimp only at h
        rcases hsc : g.sigCache.lookup a with _ | s
        · rw [hsc] at h
          dsimp only at h
          rcases hgen : generateStructureId H (.vref a) (some false) g with _ | p
          · rw [hgen] at h
            exact absurd h (by simp)
          · rw [hgen] at h
            dsimp only at h
            obtain ⟨h1, h2⟩ := Prod.mk.injEq .. ▸ Option.some.inj h
            rw [← h2]
            exact (gen_default_counter hgen).1
        · rw [hsc] at h
          dsimp only at h
          obtain ⟨h1, h2⟩ := Prod.mk.injEq .. ▸ Option.some.inj h
          rw [← h2]
      · rw [hic] at h
        dsimp only at h
        obtain ⟨h1, h2⟩ := Prod.mk.injEq .. ▸ Option.some.inj h
        rw [← h2]
    · intro i g1 h
      unfold getStructureInfo at h
      dsimp only at h
      rcases hic : g.infoCache.lookup a with _ | info
      · rw [hic] at h
        dsimp only at h
        rcases hsg : (match g.sigCache.lookup a with
          | some s => some (s, g)
          | none =>
            match generateStructureId H (.vref a) (some false) g with
            | none => none
            | some (id, g') => some (joinSep "-" ((jsSplitDash id).drop 1), g')) with _ | p
        · rw [hsg] at h
          exact absurd h (by simp)
        · rw [hsg] at h
          dsimp only at h
          obtain ⟨h1, h2⟩ := Prod.mk.injEq .. ▸ Option.some.inj h
          unfold getStructureInfo
          dsimp only
          rw [← h2, lookup_setA_self, ← h1]
      · rw [hic] at h
        dsimp only at h
        obtain ⟨h1, h2⟩ := Prod.mk.injEq .. ▸ Option.some.inj h
        rw [← h2, ← h1]
        unfold getStructureInfo
        dsimp only
        rw [hic]
    · intro id g1 h
      unfold generateStructureId at h
      dsimp only at h
      rcases he : cfg.getD g.globalCfg with _ | _
      · rw [he] at h
        by_cases hc : (g.idCache.lookup a).isSome
        · rw [if_pos ⟨rfl, hc⟩] at h
          obtain ⟨h1, h2⟩ := Prod.mk.injEq .. ▸ Option.some.inj h
          rw [← h2]
          exact fun s => le_refl _
        · rw [if_neg (fun hand => hc hand.2)] at h
          obtain ⟨st, _, _, hg⟩ := genObj_false_inv h
          rw [hg]
          exact fun s => le_refl _
      · rw [he] at h
        rw [if_neg (fun hand => Bool.noConfusion hand.1)] at h
        obtain ⟨st, _, _, hg⟩ := genObj_true_inv h
        rw [hg]
        intro s
        show sigCount g s ≤ ((gAfterE H a g st).counter.lookup s).getD 0
        by_cases hs : s = sigOf st
        · subst hs
          show sigCount g (sigOf st) ≤
            ((setA g.counter (sigOf st) (sigCount g (sigOf st) + 1)).lookup (sigOf st)).getD 0
          rw [lookup_setA_self]
          exact Nat.le_succ _
        · show sigCount g s ≤ ((setA g.counter (sigOf st) (sigCount g (sigOf st) + 1)).lookup s).getD 0
          rw [lookup_setA_ne _ _ _ _ hs]
          exact le_refl _
  all_goals exact claim_C4_prim H _ cfg g rfl

theorem claim_C4_witness :
    sigCount initialGState "x" ≤ sigCount initialGState "x" :=
  (claim_C4 [] (JsVal.vnum 1) none initialGState).2.2 (primId (JsVal.vnum 1))
    initialGState rfl "x"

/-- C4 counterexample to "no operation ever decrements a collision counter":
two collision-mode generations raise the counter of the shape
`\x7b a: 1 \x7d` to `2`; `registerStructure` with count `0` then overwrites
it back to `0`. -/
theorem claim_C4_cex :
    ∃ g1 g2 g3,
      generateStructureId [HNode.obj [("a", JsVal.vnum 1)]] (.vref 0) (some true)
        initialGState = some ("L0:0-L1:3", g1) ∧
      generateStructureId [HNode.obj [("a", JsVal.vnum 1)]] (.vref 0) (some true)
        g1 = some ("L0:1-L1:3", g2) ∧
      registerStructure [HNode.obj [("a", JsVal.vnum 1)]] (.vref 0) 0 g2 = some g3 ∧
      g2.counter.lookup "L1:3" = some 2 ∧
      g3.counter.lookup "L1:3" = some 0 := by
  refine ⟨_, _, _, rfl, rfl, rfl, ?_, ?_⟩ <;> rfl

/-! ## Import/export lemmas -/

theorem importKeys_frame (ks : List (String × String)) : ∀ g : GState,
    (importKeys ks g).2.counter = g.counter ∧ (importKeys ks g).2.nextBit = g.nextBit ∧
    (importKeys ks g).2.idCache = g.idCache ∧ (importKeys ks g).2.sigCache = g.sigCache ∧
    (importKeys ks g).2.infoCache = g.infoCache ∧ (importKeys ks g).2.seed = g.seed ∧
    (importKeys ks g).2.globalCfg = g.globalCfg := by
  induction ks with
  | nil => exact fun g => ⟨rfl, rfl, rfl, rfl, rfl, rfl, rfl⟩
  | cons q rest ih =>
    rcases q with ⟨k, bs⟩
    intro g
    show (importKeys ((k, bs) :: rest) g).2.counter = g.counter ∧ _
    unfold importKeys
    rcases hb : jsBigInt? bs with _ | b
    · exact ⟨rfl, rfl, rfl, rfl, rfl, rfl, rfl⟩
    · exact ih _

theorem importKeys_split (ks1 : List (String × String)) (k bs : String)
    (ks2 : List (String × String)) : ∀ g : GState,
    (∀ p ∈ ks1, (jsBigInt? p.2).isSome = true) → jsBigInt? bs = none →
    ∃ gp, importKeys ks1 g = (none, gp) ∧
      importKeys (ks1 ++ (k, bs) :: ks2) g =
        (some ("Cannot convert " ++ bs ++ " to a BigInt"), gp) := by
  induction ks1 with
  | nil =>
    intro g _ hbad
    refine ⟨g, rfl, ?_⟩
    show importKeys ((k, bs) :: ks2) g = _
    unfold importKeys
    rw [hbad]
  | cons q rest ih =>
    rcases q with ⟨k1, b1⟩
    intro g hgood hbad
    obtain ⟨b, hb⟩ := Option.isSome_iff_exists.mp (hgood (k1, b1) (List.mem_cons_self _ _))
    obtain ⟨gp, h1, h2⟩ := ih { g with km := setA g.km k1 b }
      (fun p hp => hgood p (List.mem_cons_of_mem _ hp)) hbad
    refine ⟨gp, ?_, ?_⟩
    · show importKeys ((k1, b1) :: rest) g = (none, gp)
      unfold importKeys
      rw [hb]
      exact h1
    · show importKeys (((k1, b1) :: rest) ++ (k, bs) :: ks2) g = _
      rw [List.cons_append]
      unfold importKeys
      rw [hb]
      exact h2

theorem importKeys_exact (L : List (String × Int)) : ∀ g0 : GState,
    (∀ p ∈ L, g0.km.lookup p.1 = none) → (L.map Prod.fst).Nodup →
    importKeys (L.map (fun p => (p.1, intDecimal p.2))) g0 =
      (none, { g0 with km := g0.km ++ L }) := by
  induction L with
  | nil =>
    intro g0 _ _
    show (none, g0) = _
    simp
  | cons q rest ih =>
    rcases q with ⟨k, b⟩
    intro g0 hfresh hnodup
    show importKeys ((k, intDecimal b) :: rest.map _) g0 = _
    unfold importKeys
    rw [jsBigInt?_intDecimal]
    dsimp only
    have hknm : k ∉ g0.km.map Prod.fst :=
      not_mem_keys_of_lookup_none (hfresh (k, b) (List.mem_cons_self _ _))
    rw [setA_eq_append _ _ _ hknm]
    rw [ih { g0 with km := g0.km ++ [(k, b)] } ?fresh ((List.nodup_cons.mp hnodup).2)]
    case fresh =>
      intro p hp
      rw [lookup_append_none _ (hfresh p (List.mem_cons_of_mem _ hp))]
      have hne : p.1 ≠ k := fun he =>
        (List.nodup_cons.mp hnodup).1 (he ▸ List.mem_map.mpr ⟨p, hp, rfl⟩)
      simp [List.lookup, beq_eq_false_iff_ne.mpr hne]
    simp [List.append_assoc]

theorem importCounters_exact (L : List (String × Nat)) : ∀ c : List (String × Nat),
    (∀ p ∈ L, c.lookup p.1 = none) → (L.map Prod.fst).Nodup →
    importCounters L c = c ++ L := by
  induction L with
  | nil =>
    intro c _ _
    simp [importCounters]
  | cons q rest ih =>
    rcases q with ⟨s, n⟩
    intro c hfresh hnodup
    show importCounters rest (setA c s n) = _
    rw [setA_eq_append _ _ _
      (not_mem_keys_of_lookup_none (hfresh (s, n) (List.mem_cons_self _ _)))]
    rw [ih (c ++ [(s, n)]) ?fresh ((List.nodup_cons.mp hnodup).2)]
    case fresh =>
      intro p hp
      rw [lookup_append_none _ (hfresh p (List.mem_cons_of_mem _ hp))]
      have hne : p.1 ≠ s := fun he =>
        (List.nodup_cons.mp hnodup).1 (he ▸ List.mem_map.mpr ⟨p, hp, rfl⟩)
      simp [List.lookup, beq_eq_false_iff_ne.mpr hne]
    simp [List.append_assoc]

theorem maxBitOf_fold (L : List (String × Int)) : ∀ init : Int,
    (L.map (fun p => (p.1, intDecimal p.2))).foldl
      (fun m p => let b := (jsBigInt? p.2).getD 0; if m < b then b else m) init =
    L.foldl (fun m p => if m < p.2 then p.2 else m) init := by
  induction L with
  | nil => exact fun _ => rfl
  | cons q rest ih =>
    intro init
    simp only [List.map_cons, List.foldl_cons]
    rw [jsBigInt?_intDecimal]
    simp only [Option.getD_some]
    exact ih _

theorem foldl_max_bound (L : List (String × Int)) : ∀ init : Int,
    init ≤ L.foldl (fun m p => if m < p.2 then p.2 else m) init ∧
    ∀ p ∈ L, p.2 ≤ L.foldl (fun m p => if m < p.2 then p.2 else m) init := by
  induction L with
  | nil => exact fun init => ⟨le_refl _, by simp⟩
  | cons q rest ih =>
    intro init
    have hstep : init ≤ if init < q.2 then q.2 else init := by split_ifs <;> omega
    have hq : q.2 ≤ if init < q.2 then q.2 else init := by split_ifs <;> omega
    obtain ⟨h1, h2⟩ := ih (if init < q.2 then q.2 else init)
    refine ⟨le_trans hstep h1, ?_⟩
    intro p hp
    rcases List.mem_cons.mp hp with hp | hp
    · rw [hp]
      exact le_trans hq h1
    · exact h2 p hp

theorem maxBitOf_spec (L : List (String × Int)) :
    512 ≤ maxBitOf (L.map (fun p => (p.1, intDecimal p.2))) ∧
    ∀ p ∈ L, p.2 ≤ maxBitOf (L.map (fun p => (p.1, intDecimal p.2))) := by
  unfold maxBitOf
  rw [maxBitOf_fold]
  exact foldl_max_bound L 512

/-- C7 (amended): for a state blob whose key map holds a malformed (non-
numeric) bit string after a well-formed prefix, `importStructureState`
returns the descriptive error `"Cannot convert {bs} to a BigInt"`, but the
engine state is NOT "exactly as it was before the call": the engine is reset
first and the well-formed prefix replayed, so the call leaves the freshly
reset and partially replayed state — counters and all three caches empty and
the watermark back at `512` — no matter what the pre-call state held.
`claim_C7_cex` exhibits the observable partial mutation refuting the
all-or-nothing reading. -/
theorem claim_C7 (ks1 : List (String × String)) (k bs : String)
    (ks2 : List (String × String)) (ctrs : List (String × Nat)) (ns : Nat) (g : GState)
    (hgood : ∀ p ∈ ks1, (jsBigInt? p.2).isSome = true)
    (hbad : jsBigInt? bs = none) :
    ∃ gOut,
      importStructureState ⟨ks1 ++ (k, bs) :: ks2, ctrs⟩ ns g =
        (some ("Cannot convert " ++ bs ++ " to a BigInt"), gOut) ∧
      gOut = (importKeys ks1 (resetState ns g)).2 ∧
      gOut.counter = [] ∧ gOut.idCache = [] ∧ gOut.sigCache = [] ∧
      gOut.infoCache = [] ∧ gOut.nextBit = 512 := by
  obtain ⟨gp, h1, h2⟩ := importKeys_split ks1 k bs ks2 (resetState ns g) hgood hbad
  have hf := importKeys_frame ks1 (resetState ns g)
  rw [h1] at hf
  refine ⟨gp, ?_, by rw [h1], hf.1, ?_, ?_, ?_, hf.2.1⟩
  · unfold importStructureState
    dsimp only
    rw [h2]
  · exact hf.2.2.1
  · exact hf.2.2.2.1
  · exact hf.2.2.2.2.1

theorem claim_C7_witness :
    ∃ gOut,
      importStructureState ⟨[("good", "77")] ++ ("bad", "xyz") :: [], [("c", 5)]⟩ 0
        { initialGState with counter := [("c", 5)], km := [("k", 600)] } =
        (some ("Cannot convert " ++ "xyz" ++ " to a BigInt"), gOut) ∧
      gOut = (importKeys [("good", "77")]
        (resetState 0 { initialGState with counter := [("c", 5)], km := [("k", 600)] })).2 ∧
      gOut.counter = [] ∧ gOut.idCache = [] ∧ gOut.sigCache = [] ∧
      gOut.infoCache = [] ∧ gOut.nextBit = 512 :=
  claim_C7 [("good", "77")] "bad" "xyz" [] [("c", 5)] 0
    { initialGState with counter := [("c", 5)], km := [("k", 600)] }
    (by decide) (by decide)

/-- C7 counterexample to the all-or-nothing reading: importing a blob with a
malformed second entry errors out yet observably mutates the engine — the
pre-call registry entry and counter are gone and the good prefix was
replayed. -/
theorem claim_C7_cex :
    ∃ gOut,
      importStructureState ⟨[("good", "77"), ("bad", "xyz")], [("c", 5)]⟩ 0
        { initialGState with counter := [("c", 5)], km := [("k", 600)] } =
        (some "Cannot convert xyz to a BigInt", gOut) ∧
      gOut ≠ { initialGState with counter := [("c", 5)], km := [("k", 600)] } ∧
      gOut.km = [("good", 77)] ∧ gOut.counter = [] := by
  refine ⟨_, rfl, ?_, rfl, rfl⟩
  decide

/-- A sample populated engine state for the round-trip witness. -/
def c8State : GState :=
  { initialGState with km := [("k", 600), ("j", 1024)], counter := [("s", 3)] }

/-- C8: importing an export of the current state (whose registry and counter
keys are duplicate-free, as every reachable state's are) succeeds and
restores exactly the exported registry and collision counters, and sets the
allocator watermark to one doubling past the maximum imported bit, so the
next allocated bit strictly exceeds every imported bit. -/
theorem claim_C8 (g : GState) (ns : Nat)
    (hk : (g.km.map Prod.fst).Nodup) (hc : (g.counter.map Prod.fst).Nodup) :
    ∃ gOut,
      importStructureState (exportStructureState g) ns g = (none, gOut) ∧
      gOut.km = g.km ∧
      gOut.counter = g.counter ∧
      gOut.nextBit = maxBitOf (exportStructureState g).keyMap * 2 ∧
      ∀ p ∈ g.km, p.2 < gOut.nextBit := by
  have hkeys := importKeys_exact g.km (resetState ns g) (fun p _ => rfl) hk
  have hctr := importCounters_exact g.counter [] (fun p _ => rfl) hc
  obtain ⟨hspec1, hspec2⟩ := maxBitOf_spec g.km
  refine ⟨{ resetState ns g with
      km := (resetState ns g).km ++ g.km
      counter := importCounters g.counter (resetState ns g).counter
      nextBit := maxBitOf (g.km.map (fun p => (p.1, intDecimal p.2))) * 2 },
    ?_, ?_, ?_, rfl, ?_⟩
  · show importStructureState ⟨g.km.map (fun p => (p.1, intDecimal p.2)), g.counter⟩ ns g = _
    unfold importStructureState
    dsimp only
    rw [hkeys]
  · show ((resetState ns g).km ++ g.km) = g.km
    simp [resetState]
  · show importCounters g.counter (resetState ns g).counter = g.counter
    rw [show (resetState ns g).counter = ([] : List (String × Nat)) from rfl, hctr]
    simp
  · intro p hp
    have h1 := hspec2 p hp
    show p.2 < maxBitOf (g.km.map (fun p => (p.1, intDecimal p.2))) * 2
    omega

theorem claim_C8_witness :
    ∃ gOut,
      importStructureState (exportStructureState c8State) 7 c8State = (none, gOut) ∧
      gOut.km = c8State.km ∧
      gOut.counter = c8State.counter ∧
      gOut.nextBit = maxBitOf (exportStructureState c8State).keyMap * 2 ∧
      ∀ p ∈ c8State.km, p.2 < gOut.nextBit :=
  claim_C8 c8State 7 (by decide) (by decide)

/-- C2: for every well-formed input value — primitives, null, undefined, and
every object graph including self-referential objects and multi-node
reference cycles — `generateStructureId` terminates with a result (`none`,
the model's fuel exhaustion, never occurs) and the returned ID is non-empty.
The hypothesis on `g` says every cached final ID is non-empty, which is true
of every reachable state (fresh entries are `L0:`-prefixed, as proved here).
-/
theorem claim_C2 (H : Heap) (v : JsVal) (cfg : Option Bool) (g : GState)
    (hH : heapWfB H = true) (hv : valWfB H v = true)
    (hcache : ∀ a s, g.idCache.lookup a = some s → s ≠ "") :
    ∃ id g', generateStructureId H v cfg g = some (id, g') ∧ id ≠ "" := by
  cases v
  case vref a =>
    unfold generateStructureId
    dsimp only
    by_cases hc : (cfg.getD g.globalCfg) = false ∧ (g.idCache.lookup a).isSome = true
    · rw [if_pos hc]
      obtain ⟨s, hs⟩ := Option.isSome_iff_exists.mp hc.2
      refine ⟨s, g, ?_, hcache a s hs⟩
      rw [hs]
      rfl
    · rw [if_neg hc]
      obtain ⟨st, hrun⟩ := runTraversal_some H (.vref a) g hH hv
      have hsort := runTraversal_sorted hrun
      rcases he : cfg.getD g.globalCfg with _ | _
      · rw [genObj_false H a g st hrun]
        refine ⟨_, _, rfl, ?_⟩
        obtain ⟨h1, _⟩ := idOfRun_split false g st hsort
        rw [h1, strAppend_assoc]
        exact L0_ne_empty _
      · rw [genObj_true H a g st hrun]
        refine ⟨_, _, rfl, ?_⟩
        obtain ⟨h1, _⟩ := idOfRun_split true g st hsort
        rw [h1, strAppend_assoc]
        exact L0_ne_empty _
  all_goals exact ⟨primId _, g, generateStructureId_prim rfl, primId_ne_empty _⟩

theorem claim_C2_witness :
    ∃ id g', generateStructureId [HNode.obj [("self", JsVal.vref 0)]] (JsVal.vref 0)
      none initialGState = some (id, g') ∧ id ≠ "" :=
  claim_C2 [HNode.obj [("self", JsVal.vref 0)]] (JsVal.vref 0) none initialGState
    (by decide) (by decide) (fun a s h => Option.noConfusion h)

/-! ## Default-mode shape invariance -/

theorem runPair {H : Heap} {φ : List (Addr × Addr)} (hiso : shapeIsoB H φ = true)
    {a b : Addr} (hm : valMatchB φ (.vref a) (.vref b) = true) {g : GState} {stA : TSt}
    (hA : runTraversal H (.vref a) g = some stA) :
    ∃ stB, runTraversal H (.vref b) g = some stB ∧ TRel φ stA stB := by
  have hrel : RelOpt (TRel φ) (runTraversal H (.vref a) g) (runTraversal H (.vref b) g) :=
    runTraversal_iso hiso hm
  rw [hA] at hrel
  rcases hB : runTraversal H (.vref b) g with _ | stB
  · rw [hB] at hrel
    exact hrel.elim
  · rw [hB] at hrel
    exact ⟨stB, rfl, hrel⟩

/-- The body shared by C1 and the reinstatement clause of C6: in default
mode, two shape-isomorphic inputs generate the same ID, one after the
other, from any coherent state. -/
theorem defaultShapeEq (H : Heap) (φ : List (Addr × Addr)) (A B : JsVal)
    (c1 c2 : Option Bool) (g : GState)
    (hH : heapWfB H = true) (hA : valWfB H A = true) (hB : valWfB H B = true)
    (hiso : shapeIsoB H φ = true) (hm : valMatchB φ A B = true)
    (hcoh : Coherent H g)
    (he1 : c1.getD g.globalCfg = false) (he2 : c2.getD g.globalCfg = false) :
    ∃ idA g1 idB g2,
      generateStructureId H A c1 g = some (idA, g1) ∧
      generateStructureId H B c2 g1 = some (idB, g2) ∧ idA = idB := by
  cases A <;> cases B <;>
    first
    | (simp only [valMatchB] at hm; exact Bool.noConfusion hm)
    | (exact ⟨primId _, g, primId _, g, generateStructureId_prim rfl,
        generateStructureId_prim rfl, by unfold primId; rfl⟩)
    | skip
  rename_i a b
  rcases hcA : g.idCache.lookup a with _ | idA0
  · -- A not cached: a fresh default-mode generation runs and caches
    obtain ⟨stA, hrunA⟩ := runTraversal_some H (.vref a) g hH hA
    have hgenA : generateStructureId H (.vref a) c1 g =
        some (idOfRun false g stA, gAfterD H a g stA) := by
      unfold generateStructureId
      dsimp only
      rw [he1]
      rw [if_neg (fun hand => by rw [hcA] at hand; exact Bool.noConfusion hand.2)]
      exact genObj_false H a g stA hrunA
    have he2' : c2.getD (gAfterD H a g stA).globalCfg = false := he2
    by_cases hab : b = a
    · have hlkb : (gAfterD H a g stA).idCache.lookup b = some (idOfRun false g stA) := by
        show (setA g.idCache a (idOfRun false g stA)).lookup b = _
        rw [hab]
        exact lookup_setA_self _ _ _
      have hgenB : generateStructureId H (.vref b) c2 (gAfterD H a g stA) =
          some (idOfRun false g stA, gAfterD H a g stA) := by
        unfold generateStructureId
        dsimp only
        rw [he2']
        rw [if_pos ⟨rfl, by rw [hlkb]; rfl⟩]
        rw [hlkb]
        rfl
      exact ⟨_, _, _, _, hgenA, hgenB, rfl⟩
    · have hlk1 : (gAfterD H a g stA).idCache.lookup b = g.idCache.lookup b := by
        show (setA g.idCache a (idOfRun false g stA)).lookup b = _
        exact lookup_setA_ne _ _ _ _ hab
      rcases hcB : g.idCache.lookup b with _ | idB0
      · -- B not cached either: replay A's traversal inside the new state
        have hrunA1 : runTraversal H (.vref a) (gAfterD H a g stA) =
            some ⟨stA.omap, stA.levels, (gAfterD H a g stA).km, (gAfterD H a g stA).nextBit⟩ :=
          runTraversal_replay hrunA (kmLe_refl _)
        obtain ⟨stB', hrunB1, hrel⟩ := runPair hiso hm hrunA1
        have hgenB : generateStructureId H (.vref b) c2 (gAfterD H a g stA) =
            some (idOfRun false (gAfterD H a g stA) stB', gAfterD H b (gAfterD H a g stA) stB') := by
          unfold generateStructureId
          dsimp only
          rw [he2']
          rw [if_neg (fun hand => by rw [hlk1, hcB] at hand; exact Bool.noConfusion hand.2)]
          exact genObj_false H b (gAfterD H a g stA) stB' hrunB1
        refine ⟨_, _, _, _, hgenA, hgenB, ?_⟩
        have h1 : idOfRun false (gAfterD H a g stA) stB' = idOfRun false g stB' :=
          idOfRun_congr false stB' rfl rfl
        have h2 : stA.levels = stB'.levels := hrel.2.1
        rw [h1]
        exact idOfRun_levels h2
      · -- B was cached before the call: coherence ties it to a fresh run
        obtain ⟨gB', hcohB⟩ := hcoh b idB0 hcB
        obtain ⟨stB, hrunB, hidB, _⟩ := genObj_false_inv hcohB
        obtain ⟨stB2, hrunB2, hrel⟩ := runPair hiso hm hrunA
        have hsame : stB2 = stB := Option.some.inj (hrunB2.symm.trans hrunB)
        have hgenB : generateStructureId H (.vref b) c2 (gAfterD H a g stA) =
            some (idB0, gAfterD H a g stA) := by
          unfold generateStructureId
          dsimp only
          rw [he2']
          rw [if_pos ⟨rfl, by rw [hlk1, hcB]; rfl⟩]
          rw [hlk1, hcB]
          rfl
        refine ⟨_, _, _, _, hgenA, hgenB, ?_⟩
        rw [hidB]
        exact idOfRun_levels (by rw [← hsame]; exact hrel.2.1)
  · -- A cached: coherence reproduces the cached id from a fresh run
    obtain ⟨gA', hcohA⟩ := hcoh a idA0 hcA
    obtain ⟨stA, hrunA, hidA, _⟩ := genObj_false_inv hcohA
    have hgenA : generateStructureId H (.vref a) c1 g = some (idA0, g) := by
      unfold generateStructureId
      dsimp only
      rw [he1]
      rw [if_pos ⟨rfl, by rw [hcA]; rfl⟩]
      rw [hcA]
      rfl
    rcases hcB : g.idCache.lookup b with _ | idB0
    · obtain ⟨stB2, hrunB2, hrel⟩ := runPair hiso hm hrunA
      have hgenB : generateStructureId H (.vref b) c2 g =
          some (idOfRun false g stB2, gAfterD H b g stB2) := by
        unfold generateStructureId
        dsimp only
        rw [he2]
        rw [if_neg (fun hand => by rw [hcB] at hand; exact Bool.noConfusion hand.2)]
        exact genObj_false H b g stB2 hrunB2
      refine ⟨_, _, _, _, hgenA, hgenB, ?_⟩
      rw [hidA]
      exact idOfRun_levels hrel.2.1
    · obtain ⟨gB', hcohB⟩ := hcoh b idB0 hcB
      obtain ⟨stB, hrunB, hidB, _⟩ := genObj_false_inv hcohB
      obtain ⟨stB2, hrunB2, hrel⟩ := runPair hiso hm hrunA
      have hsame : stB2 = stB := Option.some.inj (hrunB2.symm.trans hrunB)
      have hgenB : generateStructureId H (.vref b) c2 g = some (idB0, g) := by
        unfold generateStructureId
        dsimp only
        rw [he2]
        rw [if_pos ⟨rfl, by rw [hcB]; rfl⟩]
        rw [hcB]
        rfl
      refine ⟨_, _, _, _, hgenA, hgenB, ?_⟩
      rw [hidA, hidB]
      exact idOfRun_levels (by rw [← hsame]; exact hrel.2.1)

/-- C1: default-mode shape invariance.  `φ` is a functional, injective
address correspondence under which the two inputs match in own-key sets,
types and array lengths at every depth (cycle shapes included, payloads and
key order free); from a coherent state (every cached id regenerates to
itself — true within one epoch with no intervening advance of the relevant
collision counter), two consecutive default-mode `generateStructureId` calls
on the two inputs return the same string. -/
theorem claim_C1 (H : Heap) (φ : List (Addr × Addr)) (A B : JsVal)
    (c1 c2 : Option Bool) (g : GState)
    (hH : heapWfB H = true) (hA : valWfB H A = true) (hB : valWfB H B = true)
    (hiso : shapeIsoB H φ = true) (hm : valMatchB φ A B = true)
    (hcoh : Coherent H g)
    (he1 : c1.getD g.globalCfg = false) (he2 : c2.getD g.globalCfg = false) :
    ∃ idA g1 idB g2,
      generateStructureId H A c1 g = some (idA, g1) ∧
      generateStructureId H B c2 g1 = some (idB, g2) ∧ idA = idB :=
  defaultShapeEq H φ A B c1 c2 g hH hA hB hiso hm hcoh he1 he2

theorem claim_C1_witness :
    ∃ idA g1 idB g2,
      generateStructureId [HNode.obj [("k", JsVal.vnum 1)], HNode.obj [("k", JsVal.vnum 2)]]
        (JsVal.vref 0) none initialGState = some (idA, g1) ∧
      generateStructureId [HNode.obj [("k", JsVal.vnum 1)], HNode.obj [("k", JsVal.vnum 2)]]
        (JsVal.vref 1) (some false) g1 = some (idB, g2) ∧ idA = idB :=
  claim_C1 [HNode.obj [("k", JsVal.vnum 1)], HNode.obj [("k", JsVal.vnum 2)]]
    [(0, 1)] (JsVal.vref 0) (JsVal.vref 1) none (some false) initialGState
    (by decide) (by decide) (by decide) (by decide) (by decide)
    (fun a id h => Option.noConfusion h) rfl rfl

/-! ## String-splitting facts for the C6 seed analysis -/

theorem strAppend_left_cancel {p x y : String} (h : p ++ x = p ++ y) : x = y := by
  have hd := congrArg String.data h
  simp only [String.data_append] at hd
  exact String.ext (List.append_cancel_left hd)

theorem dash_ne_empty (x : String) : ("-" ++ x) ≠ "" := by
  intro h
  have h2 : ("-" ++ x).data = [] := by rw [h]
  rw [String.data_append] at h2
  rw [List.append_eq_nil] at h2
  exact absurd h2.1 (by decide)

theorem natDecimal_no_dash (n : Nat) : ∀ c ∈ (natDecimal n).data, c ≠ '-' :=
  fun _ hc => (mem_digitList_ne_dash (mem_natDecimal_digit hc)).1

/-- A dash-free prefix before the first dash is unique. -/
theorem append_dash_inj : ∀ (d1 d2 r1 r2 : List Char),
    (∀ c ∈ d1, c ≠ '-') → (∀ c ∈ d2, c ≠ '-') →
    d1 ++ '-' :: r1 = d2 ++ '-' :: r2 → d1 = d2 ∧ r1 = r2 := by
  intro d1
  induction d1 with
  | nil =>
    intro d2 r1 r2 _ h2 heq
    cases d2 with
    | nil =>
      simp only [List.nil_append] at heq
      injection heq with _ hr
      exact ⟨rfl, hr⟩
    | cons c d2' =>
      simp only [List.nil_append, List.cons_append] at heq
      injection heq with hc _
      exact absurd hc.symm (h2 c (List.mem_cons_self _ _))
  | cons c d1' ih =>
    intro d2 r1 r2 h1 h2 heq
    cases d2 with
    | nil =>
      simp only [List.cons_append, List.nil_append] at heq
      injection heq with hc _
      exact absurd hc (h1 c (List.mem_cons_self _ _))
    | cons c2 d2' =>
      simp only [List.cons_append] at heq
      injection heq with hc hrest
      obtain ⟨hd, hr⟩ := ih d2' r1 r2 (fun x hx => h1 x (List.mem_cons_of_mem _ hx))
        (fun x hx => h2 x (List.mem_cons_of_mem _ hx)) hrest
      exact ⟨by rw [hc, hd], hr⟩

theorem tailOf_shape (L : List (Nat × Int)) : tailOf L = "" ∨ ∃ s, tailOf L = "-" ++ s := by
  unfold tailOf
  split_ifs
  · exact Or.inl rfl
  · exact Or.inr ⟨_, rfl⟩

/-- Equal signature tails mean equal signatures. -/
theorem tailOf_inj_sig {L1 L2 : List (Nat × Int)} (h : tailOf L1 = tailOf L2) :
    joinSep "-" ((L1.filter (fun p => 0 < p.1)).map fmtSeg) =
    joinSep "-" ((L2.filter (fun p => 0 < p.1)).map fmtSeg) := by
  unfold tailOf at h
  by_cases h1 : L1.filter (fun p => 0 < p.1) = [] <;>
    by_cases h2 : L2.filter (fun p => 0 < p.1) = []
  · rw [h1, h2]
  · rw [if_pos h1, if_neg h2] at h
    exact absurd h.symm (dash_ne_empty _)
  · rw [if_neg h1, if_pos h2] at h
    exact absurd h (dash_ne_empty _)
  · rw [if_neg h1, if_neg h2] at h
    exact strAppend_left_cancel h

/-- An id of the form `L0:{decimal}{tail}` determines its `L0` value and its
tail, when each tail is empty or dash-initial (as every signature tail is). -/
theorem idSplit_inj {m n : Nat} {T1 T2 : String}
    (hT1 : T1 = "" ∨ ∃ s, T1 = "-" ++ s) (hT2 : T2 = "" ∨ ∃ s, T2 = "-" ++ s)
    (h : "L0:" ++ natDecimal m ++ T1 = "L0:" ++ natDecimal n ++ T2) :
    m = n ∧ T1 = T2 := by
  have hd := congrArg String.data h
  simp only [String.data_append] at hd
  rw [List.append_assoc, List.append_assoc] at hd
  have hd2 : (natDecimal m).data ++ T1.data = (natDecimal n).data ++ T2.data :=
    List.append_cancel_left hd
  rcases hT1 with h1 | ⟨s1, h1⟩ <;> rcases hT2 with h2 | ⟨s2, h2⟩ <;> subst h1 <;> subst h2
  · rw [show ("" : String).data = [] from rfl, List.append_nil, List.append_nil] at hd2
    exact ⟨natDecimal_inj (String.ext hd2), rfl⟩
  · rw [show ("" : String).data = [] from rfl, List.append_nil, String.data_append,
      show ("-" : String).data = ['-'] from rfl, List.singleton_append] at hd2
    have hmem : '-' ∈ (natDecimal m).data := by
      rw [hd2]
      exact List.mem_append_right _ (List.mem_cons_self _ _)
    exact absurd rfl (natDecimal_no_dash m '-' hmem)
  · rw [show ("" : String).data = [] from rfl, List.append_nil, String.data_append,
      show ("-" : String).data = ['-'] from rfl, List.singleton_append] at hd2
    have hmem : '-' ∈ (natDecimal n).data := by
      rw [← hd2]
      exact List.mem_append_right _ (List.mem_cons_self _ _)
    exact absurd rfl (natDecimal_no_dash n '-' hmem)
  · rw [String.data_append, String.data_append,
      show ("-" : String).data = ['-'] from rfl, List.singleton_append, List.singleton_append] at hd2
    obtain ⟨hda, hdr⟩ := append_dash_inj _ _ _ _ (natDecimal_no_dash m) (natDecimal_no_dash n) hd2
    exact ⟨natDecimal_inj (String.ext hda), by rw [String.ext hdr]⟩

/-- C6 (amended): `resetState` empties the registry, the collision counters
and all three identity caches and rewinds the allocator (first conjunct);
shape invariance holds again for calls within the new epoch (second
conjunct, from the freshly emptied caches); and the default-mode ID emitted
for a previously-seen object before the reset differs from the one emitted
after the reset PROVIDED the freshly drawn epoch seed differs from the OR of
the old epoch seed with the object's collision counter (all below `2^32`;
the counter ORs into the low `L0` bits alongside the seed, so it can mask a
seed change).  The original claim's unconditional "the ID differs" is
refuted by `claim_C6_cex`: the random seed can repeat, and then the
post-reset ID is identical. -/
theorem claim_C6 (H : Heap) (a : Addr) (g : GState) (st : TSt) (sNew : Nat)
    (hH : heapWfB H = true) (ha : valWfB H (.vref a) = true)
    (hcfg : g.globalCfg = false)
    (hcoh : Coherent H g)
    (hrun : runTraversal H (.vref a) g = some st)
    (hc32 : sigCount g (sigOf st) < 2 ^ 32)
    (hs32 : g.seed < 2 ^ 32)
    (hn32 : sNew < 2 ^ 32)
    (hne : sNew ≠ Nat.lor (sigCount g (sigOf st)) g.seed) :
    ((resetState sNew g).km = [] ∧ (resetState sNew g).counter = [] ∧
      (resetState sNew g).idCache = [] ∧ (resetState sNew g).sigCache = [] ∧
      (resetState sNew g).infoCache = [] ∧ (resetState sNew g).nextBit = 512) ∧
    (∀ φ B, shapeIsoB H φ = true → valMatchB φ (.vref a) B = true → valWfB H B = true →
      ∃ idA g1 idB g2,
        generateStructureId H (.vref a) none (resetState sNew g) = some (idA, g1) ∧
        generateStructureId H B none g1 = some (idB, g2) ∧ idA = idB) ∧
    ∃ idPre g1 idPost g2,
      generateStructureId H (.vref a) none g = some (idPre, g1) ∧
      generateStructureId H (.vref a) none (resetState sNew g1) = some (idPost, g2) ∧
      idPre ≠ idPost := by
  refine ⟨⟨rfl, rfl, rfl, rfl, rfl, rfl⟩, ?_, ?_⟩
  · intro φ B hiso hm hB
    exact defaultShapeEq H φ (.vref a) B none none (resetState sNew g) hH ha hB hiso hm
      (fun x id h => Option.noConfusion h) hcfg hcfg
  · have hpre : ∃ g1, generateStructureId H (.vref a) none g = some (idOfRun false g st, g1) ∧
        resetState sNew g1 = resetState sNew g := by
      rcases hcA : g.idCache.lookup a with _ | id0
      · refine ⟨gAfterD H a g st, ?_, rfl⟩
        unfold generateStructureId
        dsimp only
        rw [hcfg]
        rw [if_neg (fun hand => by rw [hcA] at hand; exact Bool.noConfusion hand.2)]
        exact genObj_false H a g st hrun
      · obtain ⟨gX, hcohX⟩ := hcoh a id0 hcA
        obtain ⟨st', hrun', hid', _⟩ := genObj_false_inv hcohX
        have hstst : st' = st := Option.some.inj (hrun'.symm.trans hrun)
        refine ⟨g, ?_, rfl⟩
        unfold generateStructureId
        dsimp only
        rw [hcfg]
        rw [if_pos ⟨rfl, by rw [hcA]; rfl⟩]
        rw [hcA]
        rw [show (some id0).getD "" = id0 from rfl, hid', hstst]
    obtain ⟨g1, hgenPre, hresetEq⟩ := hpre
    obtain ⟨st2, hrun2⟩ := runTraversal_some H (.vref a) (resetState sNew g) hH ha
    have hgenPost : generateStructureId H (.vref a) none (resetState sNew g) =
        some (idOfRun false (resetState sNew g) st2, gAfterD H a (resetState sNew g) st2) := by
      unfold generateStructureId
      dsimp only
      rw [show (resetState sNew g).globalCfg = false from hcfg]
      rw [if_neg (fun hand => Bool.noConfusion hand.2)]
      exact genObj_false H a (resetState sNew g) st2 hrun2
    refine ⟨idOfRun false g st, g1, idOfRun false (resetState sNew g) st2,
      gAfterD H a (resetState sNew g) st2, hgenPre, ?_, ?_⟩
    · rw [hresetEq]
      exact hgenPost
    · intro heq
      obtain ⟨hsp1, _⟩ := idOfRun_split false g st (runTraversal_sorted hrun)
      obtain ⟨hsp2, _⟩ := idOfRun_split false (resetState sNew g) st2 (runTraversal_sorted hrun2)
      rw [hsp1, hsp2] at heq
      have hl0a : l0Of false g (sigOf st) =
          ((Nat.lor (Nat.lor (charSum (sigOf st) * 2 ^ 32) (sigCount g (sigOf st)))
            g.seed : Nat) : Int) := rfl
      have hl0b : l0Of false (resetState sNew g) (sigOf st2) =
          ((Nat.lor (Nat.lor (charSum (sigOf st2) * 2 ^ 32) 0) sNew : Nat) : Int) := rfl
      rw [hl0a, hl0b, intDecimal_ofNat, intDecimal_ofNat] at heq
      obtain ⟨hmn, hTT⟩ := idSplit_inj (tailOf_shape _) (tailOf_shape _) heq
      have hsig : sigOf st = sigOf st2 := tailOf_inj_sig hTT
      rw [← hsig] at hmn
      have hz : Nat.lor (charSum (sigOf st) * 2 ^ 32) 0 = charSum (sigOf st) * 2 ^ 32 :=
        Nat.or_zero _
      have hassoc : Nat.lor (Nat.lor (charSum (sigOf st) * 2 ^ 32) (sigCount g (sigOf st)))
          g.seed =
          Nat.lor (charSum (sigOf st) * 2 ^ 32) (Nat.lor (sigCount g (sigOf st)) g.seed) :=
        Nat.or_assoc ..
      rw [hassoc, hz] at hmn
      have hlow : Nat.lor (sigCount g (sigOf st)) g.seed = sNew :=
        lor_inj_low (Nat.or_lt_two_pow hc32 hs32) hn32 hmn
      exact hne hlow.symm

theorem claim_C6_witness :
    (resetState 1 initialGState).km = [] ∧ (resetState 1 initialGState).counter = [] ∧
    (resetState 1 initialGState).idCache = [] ∧ (resetState 1 initialGState).sigCache = [] ∧
    (resetState 1 initialGState).infoCache = [] ∧ (resetState 1 initialGState).nextBit = 512 :=
  (claim_C6 [HNode.obj [("a", JsVal.vnum 1)]] 0 initialGState
    ⟨[(0, ".\x7ba\x7d")], [(0, 1665), (1, 3)], [("type:object", 512), ("a", 1024)], 2048⟩ 1
    (by decide) (by decide) rfl (fun x id h => Option.noConfusion h) (by decide)
    (by decide) (by decide) (by decide) (by decide)).1

/-- C6 counterexample to "the ID differs after reset": `resetState` draws
`Math.floor(Math.random() * 10000)` as the new epoch seed, which can repeat
the previous draw; re-drawing the same seed (here `0`) makes the post-reset
default-mode ID of the previously-seen shape identical to the pre-reset
one. -/
theorem claim_C6_cex :
    ∃ g1 g2,
      generateStructureId [HNode.obj [("a", JsVal.vnum 1)]] (.vref 0) none initialGState =
        some ("L0:1005022347264-L1:3", g1) ∧
      generateStructureId [HNode.obj [("a", JsVal.vnum 1)]] (.vref 0) none
        (resetState 0 g1) = some ("L0:1005022347264-L1:3", g2) := by
  refine ⟨_, _, rfl, rfl⟩

/-! ## Collision-mode counter sequence -/

theorem genSeq_aux (H : Heap) (a0 : Addr) (st0 : TSt) :
    ∀ vs : List JsVal, ∀ (g : GState) (n : Nat),
      (∀ w ∈ vs, ∃ φ, shapeIsoB H φ = true ∧ valMatchB φ (.vref a0) w = true) →
      (∃ st1, runTraversal H (.vref a0) g = some st1 ∧ st1.levels = st0.levels ∧
        st1.km = g.km ∧ st1.nextBit = g.nextBit) →
      g.counter.lookup (sigOf st0) = some n →
      ∃ gK, genSeq H vs g =
        some ((List.range' n vs.length).map
          (fun m => "L0:" ++ natDecimal m ++ tailOf st0.levels), gK) := by
  intro vs
  induction vs with
  | nil =>
    intro g n _ _ _
    exact ⟨g, rfl⟩
  | cons w rest ih =>
    intro g n hmat hstable hcount
    obtain ⟨st1, hrun1, hlev, hkm, hnb⟩ := hstable
    obtain ⟨φ, hiso, hmw⟩ := hmat w (List.mem_cons_self _ _)
    cases w <;> (try (simp only [valMatchB] at hmw; exact Bool.noConfusion hmw))
    rename_i b
    obtain ⟨stB, hrunB, hrel⟩ := runPair hiso hmw hrun1
    have hlevB : stB.levels = st0.levels := hrel.2.1.symm.trans hlev
    have hsg : sigOf stB = sigOf st0 := by
      unfold sigOf
      rw [hlevB]
    have hgen : generateStructureId H (.vref b) (some true) g =
        some (idOfRun true g stB, gAfterE H b g stB) := by
      unfold generateStructureId
      dsimp only
      rw [if_neg (fun hand => Bool.noConfusion hand.1)]
      exact genObj_true H b g stB hrunB
    have hid : idOfRun true g stB = "L0:" ++ natDecimal n ++ tailOf st0.levels := by
      obtain ⟨hsp, _⟩ := idOfRun_split true g stB (runTraversal_sorted hrunB)
      rw [hsp]
      have hl0 : l0Of true g (sigOf stB) = ((n : Nat) : Int) := by
        show ((sigCount g (sigOf stB) : Nat) : Int) = _
        rw [hsg]
        unfold sigCount
        rw [hcount]
        rfl
      rw [hl0, intDecimal_ofNat, hlevB]
    have hstable' : ∃ st1', runTraversal H (.vref a0) (gAfterE H b g stB) = some st1' ∧
        st1'.levels = st0.levels ∧ st1'.km = (gAfterE H b g stB).km ∧
        st1'.nextBit = (gAfterE H b g stB).nextBit := by
      refine ⟨⟨st1.omap, st1.levels, (gAfterE H b g stB).km, (gAfterE H b g stB).nextBit⟩,
        ?_, hlev, rfl, rfl⟩
      apply runTraversal_replay hrun1
      show kmLe st1.km (gAfterE H b g stB).km
      rw [show (gAfterE H b g stB).km = stB.km from rfl, ← hrel.2.2.1]
      exact kmLe_refl _
    have hcount' : (gAfterE H b g stB).counter.lookup (sigOf st0) = some (n + 1) := by
      show (setA g.counter (sigOf stB) (sigCount g (sigOf stB) + 1)).lookup (sigOf st0) = _
      rw [hsg, lookup_setA_self]
      unfold sigCount
      rw [hcount]
      rfl
    obtain ⟨gK, hrest⟩ := ih (gAfterE H b g stB) (n + 1)
      (fun w hw => hmat w (List.mem_cons_of_mem _ hw)) hstable' hcount'
    refine ⟨gK, ?_⟩
    show genSeq H (JsVal.vref b :: rest) g = _
    unfold genSeq
    rw [hgen]
    dsimp only
    rw [hrest]
    dsimp only
    rw [hid]
    simp only [List.length_cons]
    rw [show List.range' n (rest.length + 1) = n :: List.range' (n + 1) rest.length from
      List.range'_succ ..]
    rfl

/-- C3: starting from a state in which the shape's collision counter is
unset, `K` consecutive collision-mode `generateStructureId` calls on
structurally identical inputs (each shape-isomorphic to the reference object
`a0`) return `K` distinct IDs that share all depth-`≥1` segments
(`tailOf st0.levels`, the signature tail of the shape) and whose `L0` values
are `0, 1, …, K-1` in call order. -/
theorem claim_C3 (H : Heap) (a0 : Addr) (vs : List JsVal) (g0 : GState) (st0 : TSt)
    (hmatches : ∀ w ∈ vs, ∃ φ, shapeIsoB H φ = true ∧ valMatchB φ (.vref a0) w = true)
    (hrun : runTraversal H (.vref a0) g0 = some st0)
    (hctr : g0.counter.lookup (sigOf st0) = none) :
    ∃ gK, genSeq H vs g0 =
      some ((List.range vs.length).map
        (fun m => "L0:" ++ natDecimal m ++ tailOf st0.levels), gK) ∧
      ((List.range vs.length).map
        (fun m => "L0:" ++ natDecimal m ++ tailOf st0.levels)).Nodup := by
  have hnodup : ((List.range vs.length).map
      (fun m => "L0:" ++ natDecimal m ++ tailOf st0.levels)).Nodup := by
    apply List.Nodup.map
    · intro m n hmn
      exact idSeq_inj hmn
    · exact List.nodup_range _
  cases vs with
  | nil => exact ⟨g0, rfl, hnodup⟩
  | cons w rest =>
    obtain ⟨φ, hiso, hmw⟩ := hmatches w (List.mem_cons_self _ _)
    cases w <;> (try (simp only [valMatchB] at hmw; exact Bool.noConfusion hmw))
    rename_i b
    obtain ⟨stB, hrunB, hrel⟩ := runPair hiso hmw hrun
    have hlevB : stB.levels = st0.levels := hrel.2.1.symm
    have hsg : sigOf stB = sigOf st0 := by
      unfold sigOf
      rw [hlevB]
    have hgen : generateStructureId H (.vref b) (some true) g0 =
        some (idOfRun true g0 stB, gAfterE H b g0 stB) := by
      unfold generateStructureId
      dsimp only
      rw [if_neg (fun hand => Bool.noConfusion hand.1)]
      exact genObj_true H b g0 stB hrunB
    have hid : idOfRun true g0 stB = "L0:" ++ natDecimal 0 ++ tailOf st0.levels := by
      obtain ⟨hsp, _⟩ := idOfRun_split true g0 stB (runTraversal_sorted hrunB)
      rw [hsp]
      have hl0 : l0Of true g0 (sigOf stB) = ((0 : Nat) : Int) := by
        show ((sigCount g0 (sigOf stB) : Nat) : Int) = _
        rw [hsg]
        unfold sigCount
        rw [hctr]
        rfl
      rw [hl0, intDecimal_ofNat, hlevB]
    have hstable' : ∃ st1', runTraversal H (.vref a0) (gAfterE H b g0 stB) = some st1' ∧
        st1'.levels = st0.levels ∧ st1'.km = (gAfterE H b g0 stB).km ∧
        st1'.nextBit = (gAfterE H b g0 stB).nextBit := by
      refine ⟨⟨st0.omap, st0.levels, (gAfterE H b g0 stB).km, (gAfterE H b g0 stB).nextBit⟩,
        ?_, rfl, rfl, rfl⟩
      apply runTraversal_replay hrun
      show kmLe st0.km (gAfterE H b g0 stB).km
      rw [show (gAfterE H b g0 stB).km = stB.km from rfl, ← hrel.2.2.1]
      exact kmLe_refl _
    have hcount' : (gAfterE H b g0 stB).counter.lookup (sigOf st0) = some 1 := by
      show (setA g0.counter (sigOf stB) (sigCount g0 (sigOf stB) + 1)).lookup (sigOf st0) = _
      rw [hsg, lookup_setA_self]
      unfold sigCount
      rw [hctr]
      rfl
    obtain ⟨gK, hrest⟩ := genSeq_aux H a0 st0 rest (gAfterE H b g0 stB) 1
      (fun w hw => hmatches w (List.mem_cons_of_mem _ hw)) hstable' hcount'
    refine ⟨gK, ?_, hnodup⟩
    show genSeq H (JsVal.vref b :: rest) g0 = _
    unfold genSeq
    rw [hgen]
    dsimp only
    rw [hrest]
    dsimp only
    rw [hid]
    simp only [List.length_cons]
    rw [show List.range (rest.length + 1) = List.range' 0 (rest.length + 1) from
      List.range_eq_range' _]
    rw [show List.range' 0 (rest.length + 1) = 0 :: List.range' 1 rest.length from
      List.range'_succ ..]
    rfl

theorem claim_C3_witness :
    ∃ gK, genSeq [HNode.obj [("a", JsVal.vnum 1)]] [JsVal.vref 0, JsVal.vref 0] initialGState =
      some ((List.range 2).map (fun m => "L0:" ++ natDecimal m ++
        tailOf (⟨[(0, ".\x7ba\x7d")], [(0, 1665), (1, 3)],
          [("type:object", 512), ("a", 1024)], 2048⟩ : TSt).levels), gK) ∧
      ((List.range 2).map (fun m => "L0:" ++ natDecimal m ++
        tailOf (⟨[(0, ".\x7ba\x7d")], [(0, 1665), (1, 3)],
          [("type:object", 512), ("a", 1024)], 2048⟩ : TSt).levels)).Nodup :=
  claim_C3 [HNode.obj [("a", JsVal.vnum 1)]] 0 [JsVal.vref 0, JsVal.vref 0] initialGState
    ⟨[(0, ".\x7ba\x7d")], [(0, 1665), (1, 3)], [("type:object", 512), ("a", 1024)], 2048⟩
    (by
      intro w hw
      refine ⟨[(0, 0)], by decide, ?_⟩
      simp only [List.mem_cons, List.not_mem_nil, or_false] at hw
      rcases hw with h | h <;> (rw [h]; decide))
    (by decide) (by decide)

end StructureId
